import Mathlib

/-!
# Verification of the YDbf DBF/XBase codec against its specification

This file embeds the data model and operations of the YDbf repository
(scalar date converters, per-type field converters, header codec, record
reader and writer, and the dump utility's null replacement) as executable
Lean definitions, and proves the specification's claims about them.

The repository's `src` tree contains only `ydbf/test.py` and `ydbf/dump.py`;
the library modules `ydbf/lib.py`, `ydbf/reader.py` and `ydbf/writer.py`
that the tests exercise are absent.  Definitions for those missing modules
are therefore modelled from the specification's words (each such definition
says so in its doc comment); `replace_null` is translated directly from
`ydbf/dump.py`.

Conventions of the embedding:
* Python text and byte strings are both lists of natural-number character
  codes (`Str := List Nat`); on-disk bytes are `List Nat` with values < 256.
* Python's dynamic typing, where a claim depends on it, is a closed variant
  type `PyVal`; exceptions are `Except PyErr`.
* A fixed-point decimal with `d` fractional digits is its scaled integer
  mantissa (`Value.vdec m` with scale `d` denotes `m / 10^d`).
-/

namespace Ydbf

/-- Character codes of a Lean string literal, used to write concrete
Python-string inputs readably. -/
def strCodes (s : String) : List Nat := s.data.map Char.toNat

/-- A Python string (or byte string): list of character codes. -/
abbrev Str := List Nat

/-- `True` for the codes of the ASCII digits `0`..`9`. -/
def isDigitCode (c : Nat) : Bool := decide (48 ≤ c) && decide (c ≤ 57)

/-- Numeric value of a big-endian list of ASCII digit codes. -/
def digitsVal (s : Str) : Nat := s.foldl (fun a c => a * 10 + (c - 48)) 0

/-- Minimal big-endian ASCII-decimal rendering of `n`, with explicit fuel
so that it is structural (the fuel `n + 1` always suffices). -/
def natStrAux : Nat → Nat → Str
  | 0, _ => []
  | fuel + 1, n => if n < 10 then [48 + n] else natStrAux fuel (n / 10) ++ [48 + n % 10]

/-- ASCII-decimal rendering of a natural number (`%d`). -/
def natStr (n : Nat) : Str := natStrAux (n + 1) n

/-- ASCII-decimal rendering of an integer, with a leading `-` when negative. -/
def intStr (n : Int) : Str := if n < 0 then 45 :: natStr n.natAbs else natStr n.natAbs

/-- `n` rendered as exactly `w` ASCII digits, zero-padded on the left
(meaningful when `n < 10 ^ w`). -/
def padDigits (w n : Nat) : Str := List.replicate (w - (natStr n).length) 48 ++ natStr n

/-! ## Calendar dates -/

/-- A calendar date, as Python's `datetime.date` (valid ones satisfy
`Date.valid`). -/
structure Date where
  year : Nat
  month : Nat
  day : Nat
deriving DecidableEq, Repr

/-- Gregorian leap-year rule. -/
def isLeap (y : Nat) : Bool := (y % 4 == 0 && y % 100 != 0) || y % 400 == 0

/-- Number of days of month `m` in year `y`. -/
def daysInMonth (y m : Nat) : Nat :=
  if m = 2 then (if isLeap y then 29 else 28)
  else if m = 4 ∨ m = 6 ∨ m = 9 ∨ m = 11 then 30
  else 31

/-- The dates representable by Python's `datetime.date`: year 1..9999 and a
day within the month. -/
def Date.valid (d : Date) : Bool :=
  decide (1 ≤ d.year) && decide (d.year ≤ 9999) &&
  decide (1 ≤ d.month) && decide (d.month ≤ 12) &&
  decide (1 ≤ d.day) && decide (d.day ≤ daysInMonth d.year d.month)

/-! ## Python-level values and errors -/

/-- The Python exception kinds the specification distinguishes. -/
inductive PyErr
  | typeError
  | valueError
  | decodeError
deriving DecidableEq, Repr

/-- A dynamically typed Python value, for the converters whose behavior
depends on the runtime type of their argument. -/
inductive PyVal
  | pnone
  | pdate (d : Date)
  | pstr (s : Str)
  | pbytes (b : List Nat)
deriving DecidableEq, Repr

/-! ## Scalar date converters (`ydbf/lib.py`: `dbf2date`, `date2dbf`,
`dbf2str`, `str2dbf`) -/

/-- Two-digit zero-padded ASCII rendering of `n` (for months and days). -/
def pad2 (n : Nat) : Str := [48 + n / 10 % 10, 48 + n % 10]

/-- Four-digit zero-padded ASCII rendering of `n` (for years; the 4-digit
year is taken literally, no 2-digit-year heuristic). -/
def pad4 (n : Nat) : Str := [48 + n / 1000 % 10, 48 + n / 100 % 10, 48 + n / 10 % 10, 48 + n % 10]

/-- The 8-byte ASCII `YYYYMMDD` rendering of a date. -/
def dateRender (d : Date) : Str := pad4 d.year ++ pad2 d.month ++ pad2 d.day

/-- Parse exactly 8 ASCII digits as an (unvalidated) `YYYY MM DD` triple. -/
def parseRaw8? (s : Str) : Option Date :=
  match s with
  | [y1, y2, y3, y4, m1, m2, e1, e2] =>
    if ([y1, y2, y3, y4, m1, m2, e1, e2].all isDigitCode) then
      some ⟨(y1 - 48) * 1000 + (y2 - 48) * 100 + (y3 - 48) * 10 + (y4 - 48),
            (m1 - 48) * 10 + (m2 - 48),
            (e1 - 48) * 10 + (e2 - 48)⟩
    else none
  | _ => none

/-- An 8-character payload that denotes an actual date. -/
def validPayloadB (s : Str) : Bool :=
  match parseRaw8? s with
  | some d => d.valid
  | none => false

/-- Modelled from the spec: `rawToDate` (`dbf2date` of the missing
`ydbf/lib.py`).  Returns null for absent, empty or literal `"None"` input,
and for any payload that does not form a valid `YYYYMMDD` date (malformed
dates are missing data, never an error); years before 1900 are taken
literally. -/
def rawToDate (input : Option Str) : Option Date :=
  match input with
  | none => none
  | some s =>
    if s = [] ∨ s = strCodes "None" then none
    else
      match parseRaw8? s with
      | some d => if d.valid then some d else none
      | none => none

/-- Modelled from the spec: `dateToRaw` (`date2dbf` of the missing
`ydbf/lib.py`).  Renders a calendar date as 8 ASCII bytes `YYYYMMDD` and
fails with a type error on anything that is not a calendar date (null and
already-raw byte strings included). -/
def dateToRaw (v : PyVal) : Except PyErr Str :=
  match v with
  | .pdate d => .ok (dateRender d)
  | _ => .error .typeError

/-- Modelled from the spec: `rawToHuman` (`dbf2str` of the missing
`ydbf/lib.py`).  Same null-propagation rules as `rawToDate`, rendering a
valid payload as `DD.MM.YYYY`. -/
def rawToHuman (input : Option Str) : Option Str :=
  (rawToDate input).map fun d => pad2 d.day ++ [46] ++ pad2 d.month ++ [46] ++ pad4 d.year

/-- Parse a text of the exact form `DD.MM.YYYY` (46 is the code of `.`)
into an (unvalidated) date. -/
def parseHuman? (s : Str) : Option Date :=
  match s with
  | [a1, a2, 46, b1, b2, 46, c1, c2, c3, c4] =>
    if ([a1, a2, b1, b2, c1, c2, c3, c4].all isDigitCode) then
      some ⟨(c1 - 48) * 1000 + (c2 - 48) * 100 + (c3 - 48) * 10 + (c4 - 48),
            (b1 - 48) * 10 + (b2 - 48),
            (a1 - 48) * 10 + (a2 - 48)⟩
    else none
  | _ => none

/-- Text of the exact form `DD.MM.YYYY` (right separators and digit counts). -/
def isHumanForm (s : Str) : Bool := (parseHuman? s).isSome

/-- Modelled from the spec: `humanToRaw` (`str2dbf` of the missing
`ydbf/lib.py`).  Type error for non-text input; value error for text that is
not exactly `DD.MM.YYYY` (or does not denote a real date); otherwise the
8-byte `YYYYMMDD` rendering. -/
def humanToRaw (v : PyVal) : Except PyErr Str :=
  match v with
  | .pstr s =>
    match parseHuman? s with
    | some d => if d.valid then .ok (dateRender d) else .error .valueError
    | none => .error .valueError
  | _ => .error .typeError

/-! ## Typed field values -/

/-- A decoded field value: integer or fixed-point numeric, text, date or
null, boolean. -/
inductive Value
  | vint (n : Int)
  | vdec (m : Int)
  | vstr (s : Str)
  | vdate (d : Date)
  | vbool (b : Bool)
  | vnone
deriving DecidableEq, Repr

/-! ## Numeric (`N`) field converter -/

/-- Whitespace for the numeric converter's strip. -/
def isWs (c : Nat) : Bool := c == 32 || c == 9 || c == 10 || c == 13

/-- Remove the longest suffix whose characters satisfy `p`. -/
def rtrimIf (p : Nat → Bool) (s : Str) : Str := (s.reverse.dropWhile p).reverse

/-- Strip leading and trailing whitespace. -/
def stripWs (s : Str) : Str := rtrimIf isWs (s.dropWhile isWs)

/-- Parse a nonempty all-digit string as a natural number. -/
def parseNatDigits? (s : Str) : Option Nat :=
  if !s.isEmpty && s.all isDigitCode then some (digitsVal s) else none

/-- Parse an optionally `-`-signed all-digit string as an integer (Python's
`int(...)` on stripped input). -/
def parseInt? (s : Str) : Option Int :=
  if s.headD 0 = 45 then (parseNatDigits? s.tail).map (fun n => -(Int.ofNat n))
  else (parseNatDigits? s).map (fun n => Int.ofNat n)

/-- Scale a fraction-digit string to exactly `dec` fractional digits: pad
with zeros if shorter; if longer, keep `dec` digits rounding half-up on the
next digit. -/
def quantFrac (dec : Nat) (fp : Str) : Nat :=
  if fp.length ≤ dec then digitsVal fp * 10 ^ (dec - fp.length)
  else
    let t := digitsVal (fp.take dec)
    if 53 ≤ fp.getD dec 0 then t + 1 else t

/-- Parse an unsigned decimal literal (`digits`, `digits.digits`, `.digits`
or `digits.`) as a mantissa scaled to `dec` fractional digits. -/
def parseDecCore? (dec : Nat) (t : Str) : Option Nat :=
  let ip := t.takeWhile (fun c => !(c == 46))
  let fp := (t.dropWhile (fun c => !(c == 46))).tail
  if (!ip.isEmpty || !fp.isEmpty) && ip.all isDigitCode && fp.all isDigitCode then
    some (digitsVal ip * 10 ^ dec + quantFrac dec fp)
  else none

/-- Parse an optionally `-`-signed decimal literal as a mantissa scaled to
`dec` fractional digits (Python's `Decimal(...)` quantized to `dec`). -/
def parseDec? (dec : Nat) (s : Str) : Option Int :=
  if s.headD 0 = 45 then (parseDecCore? dec s.tail).map (fun n => -(Int.ofNat n))
  else (parseDecCore? dec s).map (fun n => Int.ofNat n)

/-- Modelled from the spec: Numeric (`N`) decode of the missing
`ydbf/reader.py`.  Strips leading/trailing whitespace; empty or
whitespace-only input is zero (not null); `decimals = 0` parses an integer,
`decimals > 0` a fixed-point decimal with exactly `decimals` fractional
digits; non-numeric content is a value error. -/
def decodeN (dec : Nat) (s : Str) : Except PyErr Value :=
  let t := stripWs s
  if t.isEmpty then .ok (if dec = 0 then .vint 0 else .vdec 0)
  else if dec = 0 then
    match parseInt? t with
    | some n => .ok (.vint n)
    | none => .error .valueError
  else
    match parseDec? dec t with
    | some m => .ok (.vdec m)
    | none => .error .valueError

/-- Modelled from the spec: Numeric (`N`) encode of the missing
`ydbf/writer.py`.  Right-justifies the ASCII rendering within `len`
columns, left-padding with spaces; a value with `decimals > 0` is rendered
with exactly that many fractional digits; a rendering wider than the field
or a value of the wrong kind is an error. -/
def fixedStr (dec : Nat) (m : Int) : Str :=
  let a := m.natAbs
  let core := natStr (a / 10 ^ dec) ++ [46] ++ padDigits dec (a % 10 ^ dec)
  if m < 0 then 45 :: core else core

/-- Numeric (`N`) encode: see `fixedStr` for the fixed-point rendering. -/
def encodeN (len dec : Nat) (v : Value) : Except PyErr (List Nat) :=
  match dec, v with
  | 0, .vint n =>
    let r := intStr n
    if r.length ≤ len then .ok (List.replicate (len - r.length) 32 ++ r) else .error .valueError
  | d + 1, .vdec m =>
    let r := fixedStr (d + 1) m
    if r.length ≤ len then .ok (List.replicate (len - r.length) 32 ++ r) else .error .valueError
  | _, _ => .error .typeError

/-! ## Character (`C`) field converter -/

/-- The text-codec capability the character converter calls (the
encoding-name-to-codec lookup is an external collaborator): `dec` is
byte-to-text decoding, `enc` text-to-byte encoding; `none` marks an invalid
sequence. -/
structure Codec where
  dec : List Nat → Option Str
  enc : Str → Option (List Nat)

/-- The ASCII codec: bytes below 128 pass through, others are invalid. -/
def asciiCodec : Codec where
  dec bs := if bs.all (fun b => decide (b < 128)) then some bs else none
  enc s := if s.all (fun b => decide (b < 128)) then some s else none

/-- Remove trailing space bytes. -/
def rtrimSpaces (s : Str) : Str := rtrimIf (fun c => c == 32) s

/-- Modelled from the spec: Character (`C`) decode of the missing
`ydbf/reader.py`.  Trims trailing spaces (preserving leading ones); with
unicode mode on, decodes via the configured codec, failing with a decode
error on invalid byte sequences; with unicode mode off, returns the raw
bytes as opaque text, never failing. -/
def decodeC (useUnicode : Bool) (codec : Codec) (bs : List Nat) : Except PyErr Value :=
  let t := rtrimSpaces bs
  if useUnicode then
    match codec.dec t with
    | some s => .ok (.vstr s)
    | none => .error .decodeError
  else .ok (.vstr t)

/-- Modelled from the spec: Character (`C`) encode of the missing
`ydbf/writer.py`.  Left-justifies the text within `len` bytes, padding with
spaces, encoding via the codec when unicode mode is on. -/
def encodeC (useUnicode : Bool) (codec : Codec) (len : Nat) (v : Value) : Except PyErr (List Nat) :=
  match v with
  | .vstr s =>
    match (if useUnicode then codec.enc s else some s) with
    | some bs =>
      if bs.length ≤ len then .ok (bs ++ List.replicate (len - bs.length) 32)
      else .error .valueError
    | none => .error .decodeError
  | _ => .error .typeError

/-! ## Date (`D`) and Logical (`L`) field converters -/

/-- Modelled from the spec: Date (`D`) decode delegates to `rawToDate`
(null for malformed payloads). -/
def decodeD (bs : List Nat) : Except PyErr Value :=
  match rawToDate (some bs) with
  | some d => .ok (.vdate d)
  | none => .ok .vnone

/-- Modelled from the spec: Date (`D`) encode delegates to `dateToRaw`. -/
def encodeD (v : Value) : Except PyErr (List Nat) :=
  match v with
  | .vdate d => .ok (dateRender d)
  | _ => .error .typeError

/-- Modelled from the spec: Logical (`L`) decode maps the single byte
case-insensitively, `t`/`y` true, everything else false. -/
def decodeL (bs : List Nat) : Except PyErr Value :=
  .ok (.vbool (decide (bs.headD 0 ∈ [116, 84, 121, 89])))

/-- Modelled from the spec: Logical (`L`) encode maps true to `T`, false
to `F`. -/
def encodeL (v : Value) : Except PyErr (List Nat) :=
  match v with
  | .vbool b => .ok [if b then 84 else 70]
  | _ => .error .typeError

/-! ## Field descriptors and per-field dispatch -/

/-- One column's metadata: name (byte string, at most 10 characters),
one-character type code, on-disk length, decimal count. -/
structure FieldDescr where
  name : List Nat
  ftype : Nat
  flen : Nat
  fdec : Nat
deriving DecidableEq, Repr

/-- The four recognized type codes: `N` (78), `C` (67), `D` (68), `L` (76). -/
def typeKnown (t : Nat) : Bool := t == 78 || t == 67 || t == 68 || t == 76

/-- Modelled from the spec: per-field decode dispatch of the missing
`ydbf/reader.py`, keyed by the type code. -/
def decodeField (u : Bool) (codec : Codec) (fd : FieldDescr) (bs : List Nat) : Except PyErr Value :=
  if fd.ftype = 78 then decodeN fd.fdec bs
  else if fd.ftype = 67 then decodeC u codec bs
  else if fd.ftype = 68 then decodeD bs
  else if fd.ftype = 76 then decodeL bs
  else .error .valueError

/-- Modelled from the spec: per-field encode dispatch of the missing
`ydbf/writer.py`, keyed by the type code. -/
def encodeField (u : Bool) (codec : Codec) (fd : FieldDescr) (v : Value) : Except PyErr (List Nat) :=
  if fd.ftype = 78 then encodeN fd.flen fd.fdec v
  else if fd.ftype = 67 then encodeC u codec fd.flen v
  else if fd.ftype = 68 then encodeD v
  else if fd.ftype = 76 then encodeL v
  else .error .valueError

/-- Decode a record's field area (after the deletion flag), splitting it by
the declared field widths. -/
def decodeFields (u : Bool) (codec : Codec) : List FieldDescr → List Nat → Except PyErr (List Value)
  | [], _ => .ok []
  | fd :: fds, bs => do
    let v ← decodeField u codec fd (bs.take fd.flen)
    let vs ← decodeFields u codec fds (bs.drop fd.flen)
    .ok (v :: vs)

/-- Decode one on-disk record: leading deletion-flag byte, then the fields. -/
def decodeRecord (u : Bool) (codec : Codec) (fields : List FieldDescr) (chunk : List Nat) :
    Except PyErr (Nat × List Value) :=
  match chunk with
  | [] => .error .valueError
  | flag :: rest => (decodeFields u codec fields rest).map (fun vs => (flag, vs))

/-- Encode a record's values in field order, concatenating the fixed-width
field bytes. -/
def encodeFields (u : Bool) (codec : Codec) : List FieldDescr → List Value → Except PyErr (List Nat)
  | [], [] => .ok []
  | fd :: fds, v :: vs => do
    let bs ← encodeField u codec fd v
    let rest ← encodeFields u codec fds vs
    .ok (bs ++ rest)
  | _, _ => .error .valueError

/-- Encode one on-disk record: deletion-flag byte, then the fields. -/
def encodeRecord (u : Bool) (codec : Codec) (fields : List FieldDescr) (flag : Nat)
    (vals : List Value) : Except PyErr (List Nat) :=
  (encodeFields u codec fields vals).map (fun bs => flag :: bs)

/-! ## Header codec -/

/-- Derived header length: 32-byte preamble, 32 bytes per field, 1
terminator. -/
def lenheaderOf (numfields : Nat) : Nat := 32 + 32 * numfields + 1

/-- Derived record length: 1 deletion-flag byte plus the field widths. -/
def recsizeOf (fields : List FieldDescr) : Nat := 1 + (fields.map (·.flen)).sum

/-- The 32-byte on-disk descriptor: 11-byte null-padded name, type code,
4 reserved, length, decimal count, 14 reserved. -/
def descBytes (fd : FieldDescr) : List Nat :=
  (fd.name ++ List.replicate (11 - fd.name.length) 0) ++
  (fd.ftype :: 0 :: 0 :: 0 :: 0 :: fd.flen :: fd.fdec :: List.replicate 14 0)

/-- Parsed/built header data: signature, 3-byte update date, record count,
header length, record length, language-driver byte, field table. -/
structure DbfHeader where
  sig : Nat
  lastUpdate : List Nat
  numrec : Nat
  lenheader : Nat
  recsize : Nat
  lang : Nat
  fields : List FieldDescr
deriving DecidableEq, Repr

/-- Modelled from the spec: header serialization of the missing
`ydbf/writer.py`, laid out per the binary interface table (little-endian
counts, 17 reserved bytes, language byte at offset 29, two reserved bytes,
then the descriptors and the `0x0D` terminator).  The record-count field
holds the finalized count. -/
def buildHeaderBytes (h : DbfHeader) : List Nat :=
  h.sig :: h.lastUpdate.getD 0 0 :: h.lastUpdate.getD 1 0 :: h.lastUpdate.getD 2 0 ::
  (h.numrec % 256) :: (h.numrec / 256 % 256) :: (h.numrec / 65536 % 256) ::
  (h.numrec / 16777216 % 256) ::
  (h.lenheader % 256) :: (h.lenheader / 256 % 256) ::
  (h.recsize % 256) :: (h.recsize / 256 % 256) ::
  0 :: 0 :: 0 :: 0 :: 0 :: 0 :: 0 :: 0 :: 0 :: 0 :: 0 :: 0 :: 0 :: 0 :: 0 :: 0 :: 0 ::
  h.lang :: 0 :: 0 :: ((h.fields.map descBytes).flatten ++ [13])

/-- Read one 32-byte descriptor block: name up to its null padding, type
code at offset 11, length at 16, decimal count at 17. -/
def parseDescBlock (d : List Nat) : FieldDescr :=
  { name := (d.take 11).takeWhile (fun c => !(c == 0))
    ftype := (d.drop 11).headD 0
    flen := (d.drop 16).headD 0
    fdec := (d.drop 17).headD 0 }

/-- Modelled from the spec: descriptor loop of the missing
`ydbf/reader.py` header parse — read 32-byte descriptors until the `0x0D`
terminator, rejecting any unrecognized type code with a value error.  The
fuel is structural bookkeeping; `bs.length + 1` always suffices. -/
def parseFieldsFuel : Nat → List Nat → Except PyErr (List FieldDescr)
  | 0, _ => .error .valueError
  | fuel + 1, bs =>
    if bs = [] then .error .valueError
    else if bs.headD 0 = 13 then .ok []
    else
      let fd := parseDescBlock bs
      if typeKnown fd.ftype then (parseFieldsFuel fuel (bs.drop 32)).map (fun fds => fd :: fds)
      else .error .valueError

/-- Descriptor loop with sufficient fuel. -/
def parseFieldsLoop (bs : List Nat) : Except PyErr (List FieldDescr) :=
  parseFieldsFuel (bs.length + 1) bs

/-- Modelled from the spec: header parse of the missing `ydbf/reader.py`
(Reader construction): fixed 32-byte preamble (signature, 3-byte update
date, little-endian counts, language byte at offset 29), then descriptors
until the terminator.  Fails with a value error before any record is
read. -/
def parseHeader (bs : List Nat) : Except PyErr DbfHeader :=
  match bs with
  | sig :: u1 :: u2 :: u3 :: n0 :: n1 :: n2 :: n3 :: h0 :: h1 :: r0 :: r1 :: rest =>
    (parseFieldsLoop (rest.drop 20)).map (fun fds =>
      { sig := sig
        lastUpdate := [u1, u2, u3]
        numrec := n0 + 256 * n1 + 65536 * n2 + 16777216 * n3
        lenheader := h0 + 256 * h1
        recsize := r0 + 256 * r1
        lang := (rest.drop 17).headD 0
        fields := fds })
  | _ => .error .valueError

/-! ## Record reader -/

/-- Read `count` records of `recsize` bytes each from the data section,
decoding each into its deletion-flag byte and field values. -/
def readAllRecords (u : Bool) (codec : Codec) (fields : List FieldDescr) (recsize : Nat) :
    Nat → List Nat → Except PyErr (List (Nat × List Value))
  | 0, _ => .ok []
  | k + 1, bs => do
    let r ← decodeRecord u codec fields (bs.take recsize)
    let rest ← readAllRecords u codec fields recsize k (bs.drop recsize)
    .ok (r :: rest)

/-- Modelled from the spec: the Reader's open-plus-stream pipeline of the
missing `ydbf/reader.py` — parse the header, then read `record-count`
records of `record-length` bytes from the data section, which starts at
offset `header-length`. -/
def readFile (u : Bool) (codec : Codec) (bs : List Nat) :
    Except PyErr (DbfHeader × List (Nat × List Value)) := do
  let hdr ← parseHeader bs
  let recs ← readAllRecords u codec hdr.fields hdr.recsize hdr.numrec (bs.drop hdr.lenheader)
  .ok (hdr, recs)

/-- Bound a sequence by an optional maximum count. -/
def applyLimit : Option Nat → List α → List α
  | none, l => l
  | some k, l => l.take k

/-- Modelled from the spec: the Reader's `records` iteration of the missing
`ydbf/reader.py`.  Default iteration skips records whose deletion flag is
`*` (42); with deleted-record visibility on, every record is produced with
its deletion marker (empty text when live, `*` when deleted) prepended as a
pseudo-field; the zero-based start offset and optional maximum count are
measured against the resulting (filtered) output sequence. -/
def readerRecords (u : Bool) (codec : Codec) (bs : List Nat) (showDeleted : Bool)
    (start : Nat) (limit : Option Nat) : Except PyErr (List (List Value)) := do
  let res ← readFile u codec bs
  let out := if showDeleted
    then res.2.map (fun fr => Value.vstr (if fr.1 = 42 then [42] else []) :: fr.2)
    else (res.2.filter (fun fr => !(fr.1 == 42))).map Prod.snd
  .ok (applyLimit limit (out.drop start))

/-! ## Record writer -/

/-- Modelled from the spec: the Writer-construction schema gate of the
missing `ydbf/writer.py` — reject with a value error any descriptor whose
type code is unrecognized; this is the sole schema validation. -/
def checkFields (fields : List FieldDescr) : Except PyErr Unit :=
  if fields.all (fun fd => typeKnown fd.ftype) then .ok () else .error .valueError

/-- Writer construction-time configuration. -/
structure WriterCfg where
  sig : Nat
  lastUpdate : List Nat
  lang : Nat
  useUnicode : Bool
  codec : Codec

/-- Encode a data section from per-record `(deletion flag, values)` pairs. -/
def encodeBody (u : Bool) (codec : Codec) (fields : List FieldDescr) :
    List (Nat × List Value) → Except PyErr (List Nat)
  | [] => .ok []
  | fr :: rest => do
    let r ← encodeRecord u codec fields fr.1 fr.2
    let rs ← encodeBody u codec fields rest
    .ok (r ++ rs)

/-- A complete on-disk file image with explicit per-record deletion flags:
header (with final record count), data section, end-of-file marker `0x1A`. -/
def buildFile (cfg : WriterCfg) (fields : List FieldDescr)
    (flagged : List (Nat × List Value)) : Except PyErr (List Nat) := do
  checkFields fields
  let body ← encodeBody cfg.useUnicode cfg.codec fields flagged
  .ok (buildHeaderBytes
        { sig := cfg.sig, lastUpdate := cfg.lastUpdate, numrec := flagged.length,
          lenheader := lenheaderOf fields.length, recsize := recsizeOf fields,
          lang := cfg.lang, fields := fields } ++ body ++ [26])

/-- Modelled from the spec: the Writer's full run of the missing
`ydbf/writer.py` — header first, each record preceded by a space deletion
flag (the writer never marks new records deleted), then the record count
finalized in the header and the `0x1A` end-of-file marker appended. -/
def writeFile (cfg : WriterCfg) (fields : List FieldDescr) (recs : List (List Value)) :
    Except PyErr (List Nat) :=
  buildFile cfg fields (recs.map (fun r => (32, r)))

/-- The header a writer with configuration `cfg` emits for `n` records. -/
def hdrOf (cfg : WriterCfg) (fields : List FieldDescr) (n : Nat) : DbfHeader :=
  { sig := cfg.sig, lastUpdate := cfg.lastUpdate, numrec := n,
    lenheader := lenheaderOf fields.length, recsize := recsizeOf fields,
    lang := cfg.lang, fields := fields }

/-- The five-column schema of the repository's test suite
(`TestYdbfWriter.setUp` in `ydbf/test.py`). -/
def testFields : List FieldDescr :=
  [⟨strCodes "INT_FLD", 78, 4, 0⟩, ⟨strCodes "FLT_FLD", 78, 5, 2⟩,
   ⟨strCodes "CHR_FLD", 67, 6, 0⟩, ⟨strCodes "DTE_FLD", 68, 8, 0⟩,
   ⟨strCodes "BLN_FLD", 76, 1, 0⟩]

/-- The three test records of `TestYdbfWriter.setUp`, fixed-point values as
scaled mantissas (12.34 is 1234 at scale 2). -/
def testRecs : List (List Value) :=
  [[.vint 25, .vdec 1234, .vstr (strCodes "test"), .vdate ⟨2006, 5, 7⟩, .vbool true],
   [.vint 113, .vdec 101, .vstr (strCodes "del"), .vdate ⟨2006, 12, 23⟩, .vbool false],
   [.vint 7436, .vdec 50, .vstr (strCodes "ex."), .vdate ⟨2006, 7, 15⟩, .vbool true]]

/-- A writer configuration matching the test file: signature 3, update date
bytes of 2006-06-19, language byte 0, unicode off. -/
def testCfg : WriterCfg := ⟨3, [106, 6, 19], 0, false, asciiCodec⟩

/-- The test records with the third one's deletion flag set to `*` (42), as
in the test data file `simple.dbf`. -/
def testFlagged : List (Nat × List Value) :=
  [(32, [.vint 25, .vdec 1234, .vstr (strCodes "test"), .vdate ⟨2006, 5, 7⟩, .vbool true]),
   (32, [.vint 113, .vdec 101, .vstr (strCodes "del"), .vdate ⟨2006, 12, 23⟩, .vbool false]),
   (42, [.vint 7436, .vdec 50, .vstr (strCodes "ex."), .vdate ⟨2006, 7, 15⟩, .vbool true])]

/-- The test schema with the third column's type code replaced by the
unrecognized byte `0xd1` (209), as in `TestYdbfWriter.test_wrongtype`. -/
def wrongTypeFields : List FieldDescr :=
  [⟨strCodes "INT_FLD", 78, 4, 0⟩, ⟨strCodes "FLT_FLD", 78, 5, 2⟩,
   ⟨strCodes "WRNG_FLD", 209, 6, 0⟩, ⟨strCodes "DTE_FLD", 68, 8, 0⟩,
   ⟨strCodes "BLN_FLD", 76, 1, 0⟩]

/-! ## Validity predicates for round-trip statements -/

/-- A well-formed field descriptor: printable-ASCII name of at most 10
characters, byte-sized width and decimal count, recognized type code, the
fixed widths of date and logical fields. -/
def validFieldB (fd : FieldDescr) : Bool :=
  decide (fd.name.length ≤ 10) &&
  fd.name.all (fun b => decide (32 ≤ b) && decide (b ≤ 126)) &&
  decide (0 < fd.flen) && decide (fd.flen < 256) && decide (fd.fdec < 256) &&
  typeKnown fd.ftype &&
  (fd.ftype != 68 || fd.flen == 8) && (fd.ftype != 76 || fd.flen == 1)

/-- A value storable in (and recoverable from) a given field: right kind
for the type code, rendering that fits the declared width; character data
is byte text without trailing spaces; dates are valid. -/
def validValueB (fd : FieldDescr) (v : Value) : Bool :=
  if fd.ftype = 78 then
    if fd.fdec = 0 then
      match v with
      | .vint n => decide ((intStr n).length ≤ fd.flen)
      | _ => false
    else
      match v with
      | .vdec m => decide ((fixedStr fd.fdec m).length ≤ fd.flen)
      | _ => false
  else if fd.ftype = 67 then
    match v with
    | .vstr s =>
      decide (s.length ≤ fd.flen) && s.all (fun b => decide (b < 256)) &&
      decide (s.getLast? ≠ some 32)
    | _ => false
  else if fd.ftype = 68 then
    match v with
    | .vdate d => d.valid
    | _ => false
  else if fd.ftype = 76 then
    match v with
    | .vbool _ => true
    | _ => false
  else false

/-- A record valid for a field table: one value per field, each valid for
its descriptor. -/
def validRecordB (fields : List FieldDescr) (r : List Value) : Bool :=
  r.length == fields.length && (List.zip fields r).all (fun p => validValueB p.1 p.2)

/-! ## The dump utility's null replacement (`ydbf/dump.py`) -/

/-- From `ydbf/dump.py` `replace_null.provide_undef`: a null value becomes
the replacement string, anything else is unchanged. -/
def provide_undef (undef : Str) (v : Value) : Value :=
  if v = .vnone then .vstr undef else v

/-- From `ydbf/dump.py` `replace_null`: replace every null value of every
record by the `undef` string, one output tuple per input record. -/
def replace_null (data : List (List Value)) (undef : Str) : List (List Value) :=
  data.map (fun rec => rec.map (provide_undef undef))

/-! ## Helper lemmas: decimal renderings -/

theorem natStrAux_ne_nil (fuel n : Nat) : natStrAux (fuel + 1) n ≠ [] := by
  unfold natStrAux
  split <;> simp

theorem natStr_ne_nil (n : Nat) : natStr n ≠ [] := natStrAux_ne_nil n n

theorem natStrAux_all_digit :
    ∀ fuel n, ∀ c ∈ natStrAux fuel n, 48 ≤ c ∧ c ≤ 57 := by
  intro fuel
  induction fuel with
  | zero => intro n c hc; simp [natStrAux] at hc
  | succ f ih =>
    intro n c hc
    unfold natStrAux at hc
    split at hc
    · simp at hc; omega
    · rcases List.mem_append.1 hc with h | h
      · exact ih _ c h
      · simp at h; omega

theorem natStr_all_digit (n : Nat) : ∀ c ∈ natStr n, 48 ≤ c ∧ c ≤ 57 :=
  natStrAux_all_digit (n + 1) n

theorem digitsVal_append_single (l : Str) (c : Nat) :
    digitsVal (l ++ [c]) = digitsVal l * 10 + (c - 48) := by
  simp [digitsVal, List.foldl_append]

theorem digitsVal_natStrAux :
    ∀ fuel n, n < fuel → digitsVal (natStrAux fuel n) = n := by
  intro fuel
  induction fuel with
  | zero => intro n h; omega
  | succ f ih =>
    intro n h
    unfold natStrAux
    split
    · simp only [digitsVal, List.foldl_cons, List.foldl_nil]
      omega
    · rw [digitsVal_append_single, ih (n / 10) (by omega)]
      omega

theorem digitsVal_natStr (n : Nat) : digitsVal (natStr n) = n :=
  digitsVal_natStrAux (n + 1) n (Nat.lt_succ_self n)

theorem natStrAux_length_le :
    ∀ fuel n w, n < fuel → n < 10 ^ w → 1 ≤ w → (natStrAux fuel n).length ≤ w := by
  intro fuel
  induction fuel with
  | zero => intro n w h; omega
  | succ f ih =>
    intro n w h hw h1
    unfold natStrAux
    split
    · simpa using h1
    · rename_i hn
      have hn10 : 10 ≤ n := by omega
      have hw2 : 2 ≤ w := by
        by_contra hc
        have hw1 : w = 1 := by omega
        subst hw1
        rw [pow_one] at hw
        omega
      have hd : n / 10 < 10 ^ (w - 1) := by
        rw [Nat.div_lt_iff_lt_mul (by norm_num)]
        calc n < 10 ^ w := hw
          _ = 10 ^ (w - 1) * 10 := by
            rw [← pow_succ]
            congr 1
            omega
      have := ih (n / 10) (w - 1) (by omega) hd (by omega)
      simp only [List.length_append, List.length_cons, List.length_nil]
      omega

theorem natStr_length_le (n w : Nat) (h : n < 10 ^ w) (hw : 1 ≤ w) :
    (natStr n).length ≤ w :=
  natStrAux_length_le (n + 1) n w (Nat.lt_succ_self n) h hw

theorem digitsVal_rep48 (k : Nat) (s : Str) :
    digitsVal (List.replicate k 48 ++ s) = digitsVal s := by
  induction k with
  | zero => simp
  | succ m ih =>
    rw [List.replicate_succ, List.cons_append]
    simpa [digitsVal] using ih

theorem padDigits_length (w n : Nat) (h : n < 10 ^ w) (hw : 1 ≤ w) :
    (padDigits w n).length = w := by
  have := natStr_length_le n w h hw
  simp only [padDigits, List.length_append, List.length_replicate]
  omega

theorem padDigits_val (w n : Nat) : digitsVal (padDigits w n) = n := by
  rw [padDigits, digitsVal_rep48, digitsVal_natStr]

theorem padDigits_all_digit (w n : Nat) : ∀ c ∈ padDigits w n, 48 ≤ c ∧ c ≤ 57 := by
  intro c hc
  rcases List.mem_append.1 hc with h | h
  · rw [List.eq_of_mem_replicate h]; omega
  · exact natStr_all_digit n c h

/-! ## Helper lemmas: trimming and splitting -/

theorem dropWhile_append_all {p : Nat → Bool} {l1 l2 : Str}
    (h : ∀ a ∈ l1, p a = true) : (l1 ++ l2).dropWhile p = l2.dropWhile p := by
  induction l1 with
  | nil => simp
  | cons a t ih =>
    rw [List.cons_append, List.dropWhile_cons, if_pos (h a (by simp))]
    exact ih (fun x hx => h x (by simp [hx]))

theorem dropWhile_cons_false {p : Nat → Bool} {c : Nat} {t : Str}
    (h : p c = false) : (c :: t).dropWhile p = c :: t := by
  rw [List.dropWhile_cons, if_neg (by simp [h])]

theorem takeWhile_append_all {p : Nat → Bool} {l1 l2 : Str}
    (h : ∀ a ∈ l1, p a = true) : (l1 ++ l2).takeWhile p = l1 ++ l2.takeWhile p := by
  induction l1 with
  | nil => simp
  | cons a t ih =>
    rw [List.cons_append, List.takeWhile_cons, if_pos (h a (by simp))]
    rw [ih (fun x hx => h x (by simp [hx])), List.cons_append]

theorem takeWhile_cons_false {p : Nat → Bool} {c : Nat} {t : Str}
    (h : p c = false) : (c :: t).takeWhile p = [] := by
  rw [List.takeWhile_cons, if_neg (by simp [h])]

theorem rtrimIf_append_all {p : Nat → Bool} (s pad : Str)
    (hpad : ∀ a ∈ pad, p a = true) : rtrimIf p (s ++ pad) = rtrimIf p s := by
  unfold rtrimIf
  rw [List.reverse_append, dropWhile_append_all (by simpa using hpad)]

theorem rtrimIf_eq_self {p : Nat → Bool} (s : Str)
    (h : ∀ c, s.getLast? = some c → p c = false) : rtrimIf p s = s := by
  rcases hrev : s.reverse with _ | ⟨c, t⟩
  · have : s = [] := by simpa using congrArg List.reverse hrev
    simp [this, rtrimIf]
  · have hc : s.getLast? = some c := by
      rw [← List.head?_reverse, hrev]; rfl
    unfold rtrimIf
    rw [hrev, dropWhile_cons_false (h c hc), ← hrev, List.reverse_reverse]

/-! ## Helper lemmas: the date renderings parse back -/

theorem dateRender_eq (y m dd : Nat) :
    dateRender ⟨y, m, dd⟩ =
      [48 + y / 1000 % 10, 48 + y / 100 % 10, 48 + y / 10 % 10, 48 + y % 10,
       48 + m / 10 % 10, 48 + m % 10, 48 + dd / 10 % 10, 48 + dd % 10] := rfl

theorem daysInMonth_le (y m : Nat) : daysInMonth y m ≤ 31 := by
  unfold daysInMonth
  split
  · split <;> omega
  · split <;> omega

theorem parseRaw8_dateRender (y m dd : Nat) (hy : y ≤ 9999) (hm : m ≤ 99) (hd : dd ≤ 99) :
    parseRaw8? (dateRender ⟨y, m, dd⟩) = some ⟨y, m, dd⟩ := by
  rw [dateRender_eq]
  have hall : ([48 + y / 1000 % 10, 48 + y / 100 % 10, 48 + y / 10 % 10, 48 + y % 10,
      48 + m / 10 % 10, 48 + m % 10, 48 + dd / 10 % 10, 48 + dd % 10].all isDigitCode) = true := by
    simp only [List.all_cons, List.all_nil, isDigitCode, Bool.and_eq_true, decide_eq_true_eq,
      Bool.and_true]
    omega
  simp only [parseRaw8?, hall, if_true, Option.some.injEq, Date.mk.injEq]
  refine ⟨?_, ?_, ?_⟩ <;> omega

theorem dateRender_length (d : Date) : (dateRender d).length = 8 := by
  obtain ⟨y, m, dd⟩ := d
  rw [dateRender_eq]
  rfl

theorem rawToDate_dateRender (d : Date) (h : d.valid = true) :
    rawToDate (some (dateRender d)) = some d := by
  obtain ⟨y, m, dd⟩ := d
  have hb := h
  simp only [Date.valid, Bool.and_eq_true, decide_eq_true_eq] at hb
  obtain ⟨⟨⟨⟨⟨h1, h2⟩, h3⟩, h4⟩, h5⟩, h6⟩ := hb
  have hm31 : daysInMonth y m ≤ 31 := daysInMonth_le y m
  have hne : ¬(dateRender ⟨y, m, dd⟩ = [] ∨ dateRender ⟨y, m, dd⟩ = strCodes "None") := by
    rintro (hc | hc) <;>
      · have := congrArg List.length hc
        rw [dateRender_length] at this
        simp [strCodes] at this
  simp only [rawToDate]
  rw [if_neg hne, parseRaw8_dateRender y m dd (by omega) (by omega) (by omega)]
  simp [h]

/-! ## C4: date round trip -/

/-- C4: for every valid calendar date `d` (years before 1900 included, the
4-digit year taken literally), `rawToDate (dateToRaw d) = d`. -/
theorem claim_C4_date_roundtrip (d : Date) (h : d.valid = true) :
    ∃ r, dateToRaw (.pdate d) = .ok r ∧ rawToDate (some r) = some d :=
  ⟨dateRender d, rfl, rawToDate_dateRender d h⟩

theorem claim_C4_witness :
    (⟨1899, 5, 6⟩ : Date).valid = true ∧
    ∃ r, dateToRaw (.pdate ⟨1899, 5, 6⟩) = .ok r ∧
      rawToDate (some r) = some ⟨1899, 5, 6⟩ :=
  ⟨by decide, claim_C4_date_roundtrip ⟨1899, 5, 6⟩ (by decide)⟩

/-! ## C5: null-propagation of the raw-to-date converters -/

/-- C5: `rawToDate` yields null (it cannot raise: its type is `Option`) on
absent, empty, literal `"None"`, and every payload that is not a valid
`YYYYMMDD` date (`"0"`, `"000"`, all-space, `"foo"` included), and decodes
`"20060506"` to 2006-05-06; `rawToHuman` propagates null identically. -/
theorem claim_C5_rawToDate_null_rules :
    rawToDate none = none ∧
    rawToDate (some (strCodes "")) = none ∧
    rawToDate (some (strCodes "None")) = none ∧
    rawToDate (some (strCodes "0")) = none ∧
    rawToDate (some (strCodes "000")) = none ∧
    rawToDate (some (strCodes "        ")) = none ∧
    rawToDate (some (strCodes "foo")) = none ∧
    (∀ s, validPayloadB s = false → rawToDate (some s) = none) ∧
    rawToDate (some (strCodes "20060506")) = some ⟨2006, 5, 6⟩ ∧
    (∀ input, rawToHuman input = none ↔ rawToDate input = none) := by
  refine ⟨by decide, by decide, by decide, by decide, by decide, by decide, by decide,
    ?_, by decide, ?_⟩
  · intro s hs
    unfold validPayloadB at hs
    simp only [rawToDate]
    split
    · rfl
    · rcases hp : parseRaw8? s with _ | d
      · simp [hp]
      · rw [hp] at hs
        simp only [] at hs
        simp [hp, hs]
  · intro input
    simp [rawToHuman]

theorem claim_C5_witness :
    validPayloadB (strCodes "00000000") = false ∧
    rawToDate (some (strCodes "00000000")) = none :=
  ⟨by decide, claim_C5_rawToDate_null_rules.2.2.2.2.2.2.2.1 _ (by decide)⟩

/-! ## C8: type and value errors of the date-to-raw converters -/

/-- C8: `dateToRaw` fails with a type error on every non-date input (null
and raw byte strings included); `humanToRaw` fails with a type error on
every non-text input and with a value error on every text not exactly of
the form `DD.MM.YYYY`; and `humanToRaw "06.05.2006" = dateToRaw
(date 2006-05-06)`. -/
theorem claim_C8_raw_converter_errors :
    (∀ v, (∀ d, v ≠ .pdate d) → dateToRaw v = .error .typeError) ∧
    (∀ v, (∀ s, v ≠ .pstr s) → humanToRaw v = .error .typeError) ∧
    (∀ s, isHumanForm s = false → humanToRaw (.pstr s) = .error .valueError) ∧
    humanToRaw (.pstr (strCodes "06.05.2006")) = dateToRaw (.pdate ⟨2006, 5, 6⟩) := by
  refine ⟨?_, ?_, ?_, rfl⟩
  · intro v hv
    cases v
    · rfl
    · exact absurd rfl (hv _)
    · rfl
    · rfl
  · intro v hv
    cases v
    · rfl
    · rfl
    · exact absurd rfl (hv _)
    · rfl
  · intro s hs
    unfold isHumanForm at hs
    unfold humanToRaw
    rcases hp : parseHuman? s with _ | d
    · simp [hp]
    · rw [hp] at hs
      simp at hs

theorem claim_C8_witness :
    dateToRaw .pnone = .error .typeError ∧
    dateToRaw (.pbytes (strCodes "20060506")) = .error .typeError ∧
    humanToRaw .pnone = .error .typeError ∧
    humanToRaw (.pstr (strCodes "")) = .error .valueError ∧
    humanToRaw (.pstr (strCodes "06/05/2006")) = .error .valueError :=
  ⟨claim_C8_raw_converter_errors.1 _ (fun _ h => PyVal.noConfusion h),
   claim_C8_raw_converter_errors.1 _ (fun _ h => PyVal.noConfusion h),
   claim_C8_raw_converter_errors.2.1 _ (fun _ h => PyVal.noConfusion h),
   claim_C8_raw_converter_errors.2.2.1 _ (by decide),
   claim_C8_raw_converter_errors.2.2.1 _ (by decide)⟩

/-! ## Helper lemmas: character decode -/

theorem rtrimSpaces_pad (s : Str) (k : Nat) (h : s.getLast? ≠ some 32) :
    rtrimSpaces (s ++ List.replicate k 32) = s := by
  unfold rtrimSpaces
  rw [rtrimIf_append_all s _ (by intro a ha; simp [List.eq_of_mem_replicate ha])]
  refine rtrimIf_eq_self s ?_
  intro c hc
  have hne : c ≠ 32 := fun e => h (e ▸ hc)
  simp [hne]

/-! ## C7: character decode -/

/-- C7: character decode trims trailing spaces preserving leading ones
(`"  x   "` decodes to `"  x"`); with unicode mode on, byte sequences
invalid for the configured codec fail with a decode error and valid ones
decode; with unicode mode off the raw bytes come back and no failure is
possible. -/
theorem claim_C7_char_decode :
    (∀ (bs : List Nat) (codec : Codec),
      decodeC false codec bs = .ok (.vstr (rtrimSpaces bs))) ∧
    (∀ (bs : List Nat) (codec : Codec), codec.dec (rtrimSpaces bs) = none →
      decodeC true codec bs = .error .decodeError) ∧
    (∀ (bs : List Nat) (codec : Codec) (s : Str), codec.dec (rtrimSpaces bs) = some s →
      decodeC true codec bs = .ok (.vstr s)) ∧
    (∀ (s : Str) (k : Nat), s.getLast? ≠ some 32 →
      rtrimSpaces (s ++ List.replicate k 32) = s) ∧
    decodeC true asciiCodec (strCodes "  x   ") = .ok (.vstr (strCodes "  x")) := by
  refine ⟨fun bs codec => rfl, ?_, ?_, rtrimSpaces_pad, rfl⟩
  · intro bs codec h
    have e : decodeC true codec bs =
        (match codec.dec (rtrimSpaces bs) with
         | some s => Except.ok (Value.vstr s)
         | none => Except.error PyErr.decodeError) := rfl
    rw [e, h]
  · intro bs codec s h
    have e : decodeC true codec bs =
        (match codec.dec (rtrimSpaces bs) with
         | some s => Except.ok (Value.vstr s)
         | none => Except.error PyErr.decodeError) := rfl
    rw [e, h]

theorem claim_C7_witness :
    asciiCodec.dec (rtrimSpaces [242, 229, 241, 242]) = none ∧
    decodeC true asciiCodec [242, 229, 241, 242] = .error .decodeError ∧
    (strCodes "  x").getLast? ≠ some 32 ∧
    rtrimSpaces (strCodes "  x" ++ List.replicate 3 32) = strCodes "  x" :=
  ⟨rfl, claim_C7_char_decode.2.1 [242, 229, 241, 242] asciiCodec rfl, by decide,
   claim_C7_char_decode.2.2.2.1 (strCodes "  x") 3 (by decide)⟩

/-! ## Helper lemmas: numeric parsing -/

theorem natStr_all_digit_bool (n : Nat) : (natStr n).all isDigitCode = true := by
  rw [List.all_eq_true]
  intro c hc
  have := natStr_all_digit n c hc
  simp only [isDigitCode, Bool.and_eq_true, decide_eq_true_eq]
  omega

theorem padDigits_all_digit_bool (w n : Nat) : (padDigits w n).all isDigitCode = true := by
  rw [List.all_eq_true]
  intro c hc
  have := padDigits_all_digit w n c hc
  simp only [isDigitCode, Bool.and_eq_true, decide_eq_true_eq]
  omega

theorem parseNatDigits_natStr (n : Nat) : parseNatDigits? (natStr n) = some n := by
  unfold parseNatDigits?
  have hne : (natStr n).isEmpty = false := by
    rcases hh : natStr n with _ | ⟨c, t⟩
    · exact absurd hh (natStr_ne_nil n)
    · rfl
  rw [hne, natStr_all_digit_bool]
  simp [digitsVal_natStr]

theorem headD_append_left (l1 l2 : Str) (d : Nat) (h : l1 ≠ []) :
    (l1 ++ l2).headD d = l1.headD d := by
  rcases l1 with _ | ⟨c, t⟩
  · exact absurd rfl h
  · rfl

theorem natStr_headD_ne_45 (n : Nat) : (natStr n).headD 0 ≠ 45 := by
  rcases hh : natStr n with _ | ⟨c, t⟩
  · exact absurd hh (natStr_ne_nil n)
  · have hc : c ∈ natStr n := by rw [hh]; simp
    have := natStr_all_digit n c hc
    simp only [hh, List.headD_cons]
    omega

theorem parseInt_intStr (n : Int) : parseInt? (intStr n) = some n := by
  unfold intStr
  split
  · rename_i hneg
    rw [show parseInt? (45 :: natStr n.natAbs) =
        (parseNatDigits? (natStr n.natAbs)).map (fun k => -(Int.ofNat k)) from rfl]
    rw [parseNatDigits_natStr]
    simp only [Option.map_some', Option.some.injEq, Int.ofNat_eq_coe]
    omega
  · rename_i hpos
    unfold parseInt?
    rw [if_neg (natStr_headD_ne_45 n.natAbs), parseNatDigits_natStr]
    simp only [Option.map_some', Option.some.injEq, Int.ofNat_eq_coe]
    omega

theorem getLast?_mem_of_eq {l : Str} {c : Nat} (h : l.getLast? = some c) : c ∈ l := by
  induction l with
  | nil => simp at h
  | cons a t ih =>
    rcases t with _ | ⟨b, t2⟩
    · simp at h
      simp [h]
    · rw [List.getLast?_cons_cons] at h
      exact List.mem_cons_of_mem a (ih h)

theorem getLast?_cons_of_ne_nil (a : Nat) (l : Str) (h : l ≠ []) :
    (a :: l).getLast? = l.getLast? := by
  rcases l with _ | ⟨b, t⟩
  · exact absurd rfl h
  · exact List.getLast?_cons_cons

theorem getLast?_append_right (l1 l2 : Str) (h : l2 ≠ []) :
    (l1 ++ l2).getLast? = l2.getLast? := by
  induction l1 with
  | nil => simp
  | cons a t ih =>
    rw [List.cons_append, getLast?_cons_of_ne_nil a (t ++ l2) ?hne, ih]
    case hne =>
      intro he
      exact h (List.append_eq_nil.1 he).2

theorem intStr_head_last (n : Int) :
    (∀ c, (intStr n).head? = some c → isWs c = false) ∧
    (∀ c, (intStr n).getLast? = some c → isWs c = false) := by
  constructor
  · intro c hc
    unfold intStr at hc
    split at hc
    · simp at hc
      simp [← hc, isWs]
    · rcases hh : natStr n.natAbs with _ | ⟨a, t⟩
      · exact absurd hh (natStr_ne_nil _)
      · rw [hh] at hc
        simp at hc
        have ha : a ∈ natStr n.natAbs := by rw [hh]; simp
        have := natStr_all_digit _ a ha
        subst hc
        simp [isWs]
        omega
  · intro c hc
    unfold intStr at hc
    have hmem : c ∈ natStr n.natAbs := by
      split at hc
      · rw [getLast?_cons_of_ne_nil 45 _ (natStr_ne_nil _)] at hc
        exact getLast?_mem_of_eq hc
      · exact getLast?_mem_of_eq hc
    have := natStr_all_digit _ c hmem
    simp [isWs]
    omega

theorem stripWs_pad_left (k : Nat) (s : Str) :
    stripWs (List.replicate k 32 ++ s) = stripWs s := by
  unfold stripWs
  rw [dropWhile_append_all (by intro a ha; simp [List.eq_of_mem_replicate ha, isWs])]

theorem stripWs_eq_self (s : Str) (h1 : ∀ c, s.head? = some c → isWs c = false)
    (h2 : ∀ c, s.getLast? = some c → isWs c = false) : stripWs s = s := by
  unfold stripWs
  have hd : s.dropWhile isWs = s := by
    cases s with
    | nil => rfl
    | cons c t =>
      exact dropWhile_cons_false (h1 c rfl)
  rw [hd]
  exact rtrimIf_eq_self s h2

theorem decodeN_int_roundtrip (len : Nat) (n : Int) (h : (intStr n).length ≤ len) :
    decodeN 0 (List.replicate (len - (intStr n).length) 32 ++ intStr n) = .ok (.vint n) := by
  have hstrip : stripWs (List.replicate (len - (intStr n).length) 32 ++ intStr n) = intStr n := by
    rw [stripWs_pad_left]
    exact stripWs_eq_self _ (intStr_head_last n).1 (intStr_head_last n).2
  have hne : (intStr n).isEmpty = false := by
    unfold intStr
    split
    · rfl
    · rcases hh : natStr n.natAbs with _ | ⟨c, t⟩
      · exact absurd hh (natStr_ne_nil _)
      · rfl
  simp [decodeN, hstrip, hne, parseInt_intStr]

end Ydbf

namespace Ydbf

/-! ## Helper lemmas: fixed-point parsing -/

theorem fixedStr_core_shape (dec : Nat) (m : Int) :
    fixedStr dec m = (if m < 0 then [45] else []) ++
      (natStr (m.natAbs / 10 ^ dec) ++ [46] ++ padDigits dec (m.natAbs % 10 ^ dec)) := by
  unfold fixedStr
  split <;> simp

theorem parseDecCore_fixed (dec : Nat) (a : Nat) (hdec : 1 ≤ dec) :
    parseDecCore? dec (natStr (a / 10 ^ dec) ++ [46] ++ padDigits dec (a % 10 ^ dec)) =
      some a := by
  have hnat : ∀ c ∈ natStr (a / 10 ^ dec), (fun c => !(c == 46)) c = true := by
    intro c hc
    have := natStr_all_digit _ c hc
    simp only [Bool.not_eq_true']
    have : c ≠ 46 := by omega
    simp [this]
  have hr : a % 10 ^ dec < 10 ^ dec := Nat.mod_lt a (by positivity)
  have htake : (natStr (a / 10 ^ dec) ++ [46] ++ padDigits dec (a % 10 ^ dec)).takeWhile
      (fun c => !(c == 46)) = natStr (a / 10 ^ dec) := by
    rw [List.append_assoc, takeWhile_append_all hnat]
    rw [show ([46] ++ padDigits dec (a % 10 ^ dec)) = 46 :: padDigits dec (a % 10 ^ dec) from rfl]
    rw [takeWhile_cons_false (by simp)]
    simp
  have hdrop : (natStr (a / 10 ^ dec) ++ [46] ++ padDigits dec (a % 10 ^ dec)).dropWhile
      (fun c => !(c == 46)) = 46 :: padDigits dec (a % 10 ^ dec) := by
    rw [List.append_assoc, dropWhile_append_all hnat]
    rw [show ([46] ++ padDigits dec (a % 10 ^ dec)) = 46 :: padDigits dec (a % 10 ^ dec) from rfl]
    exact dropWhile_cons_false (by simp)
  have hipne : (natStr (a / 10 ^ dec)).isEmpty = false := by
    rcases hh : natStr (a / 10 ^ dec) with _ | ⟨c, t⟩
    · exact absurd hh (natStr_ne_nil _)
    · rfl
  unfold parseDecCore?
  simp only [htake, hdrop, List.tail_cons]
  rw [hipne, natStr_all_digit_bool, padDigits_all_digit_bool]
  simp only [Bool.not_false, Bool.true_or, Bool.and_true, Bool.and_self, if_true]
  rw [digitsVal_natStr]
  unfold quantFrac
  rw [if_pos (le_of_eq (padDigits_length dec _ hr hdec))]
  rw [padDigits_val, padDigits_length dec _ hr hdec]
  simp only [Nat.sub_self, pow_zero, Nat.mul_one, Option.some.injEq]
  rw [Nat.mul_comm (a / 10 ^ dec) (10 ^ dec)]
  exact Nat.div_add_mod a (10 ^ dec)

theorem parseDec_cons45 (dec : Nat) (t : Str) :
    parseDec? dec (45 :: t) = (parseDecCore? dec t).map (fun n => -(Int.ofNat n)) := rfl

theorem parseDec_not45 (dec : Nat) (t : Str) (h : t.headD 0 ≠ 45) :
    parseDec? dec t = (parseDecCore? dec t).map (fun n => Int.ofNat n) := by
  unfold parseDec?
  rw [if_neg h]

theorem parseDec_fixedStr (dec : Nat) (m : Int) (hdec : 1 ≤ dec) :
    parseDec? dec (fixedStr dec m) = some m := by
  rw [fixedStr_core_shape]
  split
  · rename_i hneg
    rw [show ([45] ++ (natStr (m.natAbs / 10 ^ dec) ++ [46] ++ padDigits dec (m.natAbs % 10 ^ dec)))
        = 45 :: (natStr (m.natAbs / 10 ^ dec) ++ [46] ++ padDigits dec (m.natAbs % 10 ^ dec))
        from rfl]
    rw [parseDec_cons45, parseDecCore_fixed dec m.natAbs hdec]
    simp only [Option.map_some', Option.some.injEq, Int.ofNat_eq_coe]
    omega
  · rename_i hpos
    rw [List.nil_append, parseDec_not45, parseDecCore_fixed dec m.natAbs hdec]
    · simp only [Option.map_some', Option.some.injEq, Int.ofNat_eq_coe]
      omega
    · rw [List.append_assoc, headD_append_left _ _ _ (natStr_ne_nil _)]
      exact natStr_headD_ne_45 _

theorem fixedStr_head_last (dec : Nat) (m : Int) (hdec : 1 ≤ dec) :
    (∀ c, (fixedStr dec m).head? = some c → isWs c = false) ∧
    (∀ c, (fixedStr dec m).getLast? = some c → isWs c = false) := by
  constructor
  · intro c hc
    rw [fixedStr_core_shape] at hc
    split at hc
    · simp at hc
      simp [← hc, isWs]
    · simp only [List.nil_append, List.append_assoc] at hc
      rcases hh : natStr (m.natAbs / 10 ^ dec) with _ | ⟨a, t⟩
      · exact absurd hh (natStr_ne_nil _)
      · rw [hh] at hc
        simp at hc
        have ha : a ∈ natStr (m.natAbs / 10 ^ dec) := by rw [hh]; simp
        have := natStr_all_digit _ a ha
        subst hc
        simp [isWs]
        omega
  · intro c hc
    have hr : m.natAbs % 10 ^ dec < 10 ^ dec := Nat.mod_lt _ (by positivity)
    have hplen : (padDigits dec (m.natAbs % 10 ^ dec)).length = dec :=
      padDigits_length dec _ hr hdec
    have hpne : padDigits dec (m.natAbs % 10 ^ dec) ≠ [] := by
      intro he
      rw [he] at hplen
      simp at hplen
      omega
    rw [fixedStr_core_shape] at hc
    rw [getLast?_append_right _ _ (by
      intro he
      exact hpne (List.append_eq_nil.1 he).2)] at hc
    rw [getLast?_append_right _ _ hpne] at hc
    have hmem := getLast?_mem_of_eq hc
    have := padDigits_all_digit dec _ c hmem
    simp [isWs]
    omega

theorem fixedStr_ne_nil (dec : Nat) (m : Int) : fixedStr dec m ≠ [] := by
  rw [fixedStr_core_shape]
  rcases hh : natStr (m.natAbs / 10 ^ dec) with _ | ⟨a, t⟩
  · exact absurd hh (natStr_ne_nil _)
  · split <;> simp

theorem decodeN_dec_roundtrip (len dec : Nat) (m : Int) (hdec : 1 ≤ dec)
    (h : (fixedStr dec m).length ≤ len) :
    decodeN dec (List.replicate (len - (fixedStr dec m).length) 32 ++ fixedStr dec m) =
      .ok (.vdec m) := by
  have hstrip : stripWs (List.replicate (len - (fixedStr dec m).length) 32 ++ fixedStr dec m)
      = fixedStr dec m := by
    rw [stripWs_pad_left]
    exact stripWs_eq_self _ (fixedStr_head_last dec m hdec).1 (fixedStr_head_last dec m hdec).2
  have hne : (fixedStr dec m).isEmpty = false := by
    rcases hh : fixedStr dec m with _ | ⟨c, t⟩
    · exact absurd hh (fixedStr_ne_nil dec m)
    · rfl
  have hd0 : ¬(dec = 0) := by omega
  simp [decodeN, hstrip, hne, hd0, parseDec_fixedStr dec m hdec]

/-! ## Helper lemmas: non-numeric content fails -/

theorem all_false_of_mem {p : Nat → Bool} {l : Str} {c : Nat} (hc : c ∈ l)
    (hp : p c = false) : l.all p = false := by
  by_contra h
  have := List.all_eq_true.1 (by simpa using h) c hc
  rw [hp] at this
  exact Bool.false_ne_true this

theorem parseNatDigits_none_of_bad {t : Str} {c : Nat} (hc : c ∈ t)
    (hd : isDigitCode c = false) : parseNatDigits? t = none := by
  unfold parseNatDigits?
  rw [if_neg]
  rw [all_false_of_mem hc hd]
  simp

theorem parseInt_none_of_bad {t : Str} {c : Nat} (hc : c ∈ t) (hd : isDigitCode c = false)
    (h45 : c ≠ 45) : parseInt? t = none := by
  unfold parseInt?
  split
  · rcases t with _ | ⟨a, tl⟩
    · simp at hc
    · rename_i hh
      simp only [List.headD_cons] at hh
      subst hh
      rcases List.mem_cons.1 hc with rfl | hmem
      · exact absurd rfl h45
      · rw [List.tail_cons, parseNatDigits_none_of_bad hmem hd]
        rfl
  · rw [parseNatDigits_none_of_bad hc hd]
    rfl

theorem dropWhile_head_not {p : Nat → Bool} :
    ∀ (l : Str) (c : Nat) (rest : Str), l.dropWhile p = c :: rest → p c = false := by
  intro l
  induction l with
  | nil => intro c rest h; simp at h
  | cons a t ih =>
    intro c rest h
    rw [List.dropWhile_cons] at h
    split at h
    · exact ih c rest h
    · rename_i hp
      cases h
      simpa using hp

theorem parseDecCore_none_of_bad (dec : Nat) {t : Str} {c : Nat} (hc : c ∈ t)
    (hd : isDigitCode c = false) (h46 : c ≠ 46) : parseDecCore? dec t = none := by
  unfold parseDecCore?
  rw [if_neg]
  intro hcond
  simp only [Bool.and_eq_true] at hcond
  obtain ⟨⟨_, hip⟩, hfp⟩ := hcond
  have hsplit := (List.takeWhile_append_dropWhile (p := fun c => !(c == 46)) (l := t))
  rw [← hsplit] at hc
  rcases List.mem_append.1 hc with hin | hin
  · rw [all_false_of_mem hin hd] at hip
    exact Bool.false_ne_true hip
  · rcases hdw : t.dropWhile (fun c => !(c == 46)) with _ | ⟨a, rest⟩
    · rw [hdw] at hin
      simp at hin
    · have hpa := dropWhile_head_not t a rest hdw
      simp only [Bool.not_eq_false', beq_iff_eq] at hpa
      rw [hdw] at hin
      rcases List.mem_cons.1 hin with rfl | hmem
      · exact absurd hpa h46
      · rw [hdw, List.tail_cons] at hfp
        rw [all_false_of_mem hmem hd] at hfp
        exact Bool.false_ne_true hfp

theorem parseDec_none_of_bad (dec : Nat) {t : Str} {c : Nat} (hc : c ∈ t)
    (hd : isDigitCode c = false) (h45 : c ≠ 45) (h46 : c ≠ 46) : parseDec? dec t = none := by
  unfold parseDec?
  split
  · rcases t with _ | ⟨a, tl⟩
    · simp at hc
    · rename_i hh
      simp only [List.headD_cons] at hh
      subst hh
      rcases List.mem_cons.1 hc with rfl | hmem
      · exact absurd rfl h45
      · rw [List.tail_cons, parseDecCore_none_of_bad dec hmem hd h46]
        rfl
  · rw [parseDecCore_none_of_bad dec hc hd h46]
    rfl

/-! ## C6: numeric decode -/

/-- C6: numeric decode strips whitespace and maps empty or whitespace-only
input to zero (not null); with `decimals = 0` it parses an integer and with
`decimals > 0` a fixed-point value with exactly that many fractional digits
(`" 5.2 "` at 2 decimals is mantissa 520, i.e. 5.20); content containing a
character that is no digit, sign or decimal point fails with a value
error. -/
theorem claim_C6_numeric_decode :
    (∀ (dec : Nat) (s : Str), stripWs s = [] →
      decodeN dec s = .ok (if dec = 0 then .vint 0 else .vdec 0)) ∧
    decodeN 0 (strCodes "    ") = .ok (.vint 0) ∧
    decodeN 0 (strCodes " 100") = .ok (.vint 100) ∧
    decodeN 0 (strCodes "3452") = .ok (.vint 3452) ∧
    decodeN 2 (strCodes "12.34") = .ok (.vdec 1234) ∧
    decodeN 2 (strCodes " 5.2 ") = .ok (.vdec 520) ∧
    (∀ (dec : Nat) (s : Str), stripWs s ≠ [] →
      (∃ c ∈ stripWs s, isDigitCode c = false ∧ c ≠ 45 ∧ c ≠ 46) →
      decodeN dec s = .error .valueError) ∧
    decodeN 0 (strCodes "foo") = .error .valueError ∧
    decodeN 2 (strCodes "foo") = .error .valueError := by
  refine ⟨?_, rfl, rfl, rfl, rfl, rfl, ?_, rfl, rfl⟩
  · intro dec s h
    simp [decodeN, h]
  · intro dec s hne hbad
    obtain ⟨c, hc, hd, h45, h46⟩ := hbad
    have hempty : (stripWs s).isEmpty = false := by
      rcases hh : stripWs s with _ | ⟨a, t⟩
      · exact absurd hh hne
      · rfl
    by_cases hdec : dec = 0
    · subst hdec
      simp [decodeN, hempty, parseInt_none_of_bad hc hd h45]
    · simp [decodeN, hempty, hdec, parseDec_none_of_bad dec hc hd h45 h46]

theorem claim_C6_witness :
    stripWs (strCodes "  ") = [] ∧
    decodeN 3 (strCodes "  ") = .ok (.vdec 0) ∧
    stripWs (strCodes "bar") ≠ [] ∧
    decodeN 5 (strCodes "bar") = .error .valueError := by
  refine ⟨rfl, ?_, by decide,
    claim_C6_numeric_decode.2.2.2.2.2.2.1 5 (strCodes "bar") (by decide) ⟨98, by decide⟩⟩
  have := claim_C6_numeric_decode.1 3 (strCodes "  ") rfl
  simpa using this

/-! ## C10: the dump utility's null replacement -/

/-- C10: `replace_null` yields one output tuple per input record, in
order, replacing exactly the null values by the replacement string and
leaving every other value unchanged in its position. -/
theorem claim_C10_replace_null (data : List (List Value)) (undef : Str) :
    (replace_null data undef).length = data.length ∧
    (∀ (i : Nat) (rec : List Value), data[i]? = some rec →
      (replace_null data undef)[i]? = some (rec.map (provide_undef undef)) ∧
      (rec.map (provide_undef undef)).length = rec.length) ∧
    (∀ (rec : List Value) (j : Nat) (v : Value), rec[j]? = some v →
      (rec.map (provide_undef undef))[j]? =
        some (if v = .vnone then .vstr undef else v)) := by
  refine ⟨by simp [replace_null], ?_, ?_⟩
  · intro i rec h
    refine ⟨?_, by simp⟩
    simp [replace_null, List.getElem?_map, h]
  · intro rec j v h
    simp [List.getElem?_map, h, provide_undef]

theorem claim_C10_witness :
    ([[Value.vnone, Value.vint 3]][0]? = some [Value.vnone, Value.vint 3]) ∧
    (replace_null [[Value.vnone, Value.vint 3]] (strCodes "NULL"))[0]? =
      some ([Value.vnone, Value.vint 3].map (provide_undef (strCodes "NULL"))) ∧
    [Value.vnone, Value.vint 3].map (provide_undef (strCodes "NULL")) =
      [Value.vstr (strCodes "NULL"), Value.vint 3] :=
  ⟨rfl, ((claim_C10_replace_null [[Value.vnone, Value.vint 3]] (strCodes "NULL")).2.1
      0 [Value.vnone, Value.vint 3] rfl).1, by decide⟩

/-! ## Helper lemmas: descriptor bytes and header bytes -/

theorem descBytes_length (fd : FieldDescr) (h : fd.name.length ≤ 10) :
    (descBytes fd).length = 32 := by
  simp [descBytes]
  omega

theorem descs_flatten_length :
    ∀ (fields : List FieldDescr), (∀ fd ∈ fields, fd.name.length ≤ 10) →
      ((fields.map descBytes).flatten).length = 32 * fields.length := by
  intro fields
  induction fields with
  | nil => intro _; rfl
  | cons fd rest ih =>
    intro h
    simp only [List.map_cons, List.flatten_cons, List.length_append, List.length_cons]
    rw [descBytes_length fd (h fd (by simp)), ih (fun x hx => h x (by simp [hx]))]
    ring

theorem buildHeaderBytes_length (h : DbfHeader) (hf : ∀ fd ∈ h.fields, fd.name.length ≤ 10) :
    (buildHeaderBytes h).length = lenheaderOf h.fields.length := by
  simp only [buildHeaderBytes, List.length_cons, List.length_append, List.length_cons,
    descs_flatten_length h.fields hf, List.length_nil, lenheaderOf]
  omega

theorem parseDescBlock_descBytes (fd : FieldDescr) (S : List Nat)
    (hn : fd.name.length ≤ 10) (hpr : ∀ b ∈ fd.name, 32 ≤ b ∧ b ≤ 126) :
    parseDescBlock (descBytes fd ++ S) = fd := by
  obtain ⟨nme, ft, fl, fdc⟩ := fd
  simp only [descBytes] at *
  have hlen : (nme ++ List.replicate (11 - nme.length) 0).length = 11 := by
    simp
    omega
  have hshape : (nme ++ List.replicate (11 - nme.length) 0) ++
      (ft :: 0 :: 0 :: 0 :: 0 :: fl :: fdc :: List.replicate 14 0) ++ S
      = (nme ++ List.replicate (11 - nme.length) 0) ++
        (ft :: 0 :: 0 :: 0 :: 0 :: fl :: fdc :: (List.replicate 14 0 ++ S)) := by
    simp
  rw [hshape]
  unfold parseDescBlock
  rw [List.take_left' hlen, List.drop_left' hlen]
  have hname : (nme ++ List.replicate (11 - nme.length) 0).takeWhile (fun c => !(c == 0))
      = nme := by
    rw [takeWhile_append_all (by
      intro a ha
      have := hpr a ha
      have hne : a ≠ 0 := by omega
      simp [hne])]
    obtain ⟨k, hk⟩ : ∃ k, 11 - nme.length = k + 1 := ⟨10 - nme.length, by omega⟩
    rw [hk, List.replicate_succ, takeWhile_cons_false (by simp)]
    simp
  have hd16 : ((nme ++ List.replicate (11 - nme.length) 0) ++
      (ft :: 0 :: 0 :: 0 :: 0 :: fl :: fdc :: (List.replicate 14 0 ++ S))).drop 16
      = fl :: fdc :: (List.replicate 14 0 ++ S) := by
    rw [show (16 : Nat) = 11 + 5 by rfl, ← List.drop_drop, List.drop_left' hlen]
    rfl
  have hd17 : ((nme ++ List.replicate (11 - nme.length) 0) ++
      (ft :: 0 :: 0 :: 0 :: 0 :: fl :: fdc :: (List.replicate 14 0 ++ S))).drop 17
      = fdc :: (List.replicate 14 0 ++ S) := by
    rw [show (17 : Nat) = 11 + 6 by rfl, ← List.drop_drop, List.drop_left' hlen]
    rfl
  rw [hd16, hd17, hname]
  rfl

theorem descBytes_append_ne_nil (fd : FieldDescr) (S : List Nat) :
    descBytes fd ++ S ≠ [] := by
  intro he
  have := (List.append_eq_nil.1 he).1
  simp [descBytes] at this

theorem descBytes_headD_ne_13 (fd : FieldDescr) (S : List Nat)
    (hpr : ∀ b ∈ fd.name, 32 ≤ b ∧ b ≤ 126) :
    (descBytes fd ++ S).headD 0 ≠ 13 := by
  unfold descBytes
  rcases hm : fd.name with _ | ⟨c, t⟩
  · simp
  · have hc : 32 ≤ c ∧ c ≤ 126 := by
      refine hpr c ?_
      rw [hm]
      simp
    simp only [List.cons_append, List.headD_cons]
    omega

theorem parseFieldsFuel_roundtrip (S : List Nat) :
    ∀ (fields : List FieldDescr) (fuel : Nat), fields.length < fuel →
      (∀ fd ∈ fields, validFieldB fd = true) →
      parseFieldsFuel fuel ((fields.map descBytes).flatten ++ (13 :: S)) = .ok fields := by
  intro fields
  induction fields with
  | nil =>
    intro fuel hfuel _
    obtain ⟨f, rfl⟩ : ∃ f, fuel = f + 1 := ⟨fuel - 1, by omega⟩
    simp [parseFieldsFuel]
  | cons fd rest ih =>
    intro fuel hfuel hv
    obtain ⟨f, rfl⟩ : ∃ f, fuel = f + 1 := ⟨fuel - 1, by omega⟩
    have hvfd := hv fd (by simp)
    have hfacts := hvfd
    simp only [validFieldB, Bool.and_eq_true, decide_eq_true_eq] at hfacts
    obtain ⟨⟨⟨⟨⟨⟨⟨hn10, hpr⟩, hfl0⟩, hfl256⟩, hfd256⟩, htk⟩, hd8⟩, hl1⟩ := hfacts
    have hpr' : ∀ b ∈ fd.name, 32 ≤ b ∧ b ≤ 126 := by
      intro b hb
      have := List.all_eq_true.1 hpr b hb
      simp only [Bool.and_eq_true, decide_eq_true_eq] at this
      exact this
    have hstream : ((fd :: rest).map descBytes).flatten ++ (13 :: S)
        = descBytes fd ++ ((rest.map descBytes).flatten ++ (13 :: S)) := by
      simp
    rw [hstream]
    unfold parseFieldsFuel
    rw [if_neg (descBytes_append_ne_nil fd _), if_neg ?hterm]
    case hterm =>
      intro hc
      exact descBytes_headD_ne_13 fd _ hpr' hc
    rw [parseDescBlock_descBytes fd _ hn10 hpr']
    rw [if_pos htk]
    rw [List.drop_left' (descBytes_length fd hn10)]
    rw [ih f (by simpa using hfuel) (fun x hx => hv x (by simp [hx]))]
    rfl

theorem parseFieldsLoop_of_built (S : List Nat) (fields : List FieldDescr)
    (hv : ∀ fd ∈ fields, validFieldB fd = true) :
    parseFieldsLoop ((fields.map descBytes).flatten ++ (13 :: S)) = .ok fields := by
  unfold parseFieldsLoop
  refine parseFieldsFuel_roundtrip S fields _ ?_ hv
  have h1 : ((fields.map descBytes).flatten ++ (13 :: S)).length
      = ((fields.map descBytes).flatten).length + (13 :: S).length := by simp
  have h2 : fields.length ≤ ((fields.map descBytes).flatten).length := by
    rw [descs_flatten_length fields (fun fd hfd => by
      have := hv fd hfd
      simp only [validFieldB, Bool.and_eq_true, decide_eq_true_eq] at this
      exact this.1.1.1.1.1.1.1)]
    omega
  simp only [h1, List.length_cons]
  omega

theorem parseHeader_buildHeaderBytes (h : DbfHeader) (tail : List Nat)
    (hn : h.numrec < 4294967296) (hlh : h.lenheader < 65536) (hrs : h.recsize < 65536)
    (hu : h.lastUpdate.length = 3)
    (hf : ∀ fd ∈ h.fields, validFieldB fd = true) :
    parseHeader (buildHeaderBytes h ++ tail) = .ok h := by
  obtain ⟨sg, lu, nr, lh, rs, lg, fl⟩ := h
  simp only at hn hlh hrs hu hf
  rcases hl3 : lu with _ | ⟨u1, _ | ⟨u2, _ | ⟨u3, _ | ⟨u4, r4⟩⟩⟩⟩ <;> simp [hl3] at hu
  subst hl3
  have hshape : buildHeaderBytes ⟨sg, [u1, u2, u3], nr, lh, rs, lg, fl⟩ ++ tail =
      sg :: u1 :: u2 :: u3 ::
      (nr % 256) :: (nr / 256 % 256) :: (nr / 65536 % 256) :: (nr / 16777216 % 256) ::
      (lh % 256) :: (lh / 256 % 256) :: (rs % 256) :: (rs / 256 % 256) ::
      (0 :: 0 :: 0 :: 0 :: 0 :: 0 :: 0 :: 0 :: 0 :: 0 :: 0 :: 0 :: 0 :: 0 :: 0 :: 0 :: 0 ::
       lg :: 0 :: 0 :: (((fl.map descBytes).flatten ++ [13]) ++ tail)) := by
    simp [buildHeaderBytes]
  rw [hshape]
  simp only [parseHeader]
  have hdrop20 : (0 :: 0 :: 0 :: 0 :: 0 :: 0 :: 0 :: 0 :: 0 :: 0 :: 0 :: 0 :: 0 :: 0 :: 0 ::
      0 :: 0 :: lg :: 0 :: 0 :: (((fl.map descBytes).flatten ++ [13]) ++ tail) :
      List Nat).drop 20 = ((fl.map descBytes).flatten ++ [13]) ++ tail := rfl
  have hdrop17 : (0 :: 0 :: 0 :: 0 :: 0 :: 0 :: 0 :: 0 :: 0 :: 0 :: 0 :: 0 :: 0 :: 0 :: 0 ::
      0 :: 0 :: lg :: 0 :: 0 :: (((fl.map descBytes).flatten ++ [13]) ++ tail) :
      List Nat).drop 17 = lg :: 0 :: 0 :: (((fl.map descBytes).flatten ++ [13]) ++ tail) := rfl
  rw [hdrop20, hdrop17]
  have hterm : ((fl.map descBytes).flatten ++ [13]) ++ tail
      = (fl.map descBytes).flatten ++ (13 :: tail) := by simp
  rw [hterm, parseFieldsLoop_of_built tail fl hf]
  have e1 : nr % 256 + 256 * (nr / 256 % 256) + 65536 * (nr / 65536 % 256)
      + 16777216 * (nr / 16777216 % 256) = nr := by omega
  have e2 : lh % 256 + 256 * (lh / 256 % 256) = lh := by omega
  have e3 : rs % 256 + 256 * (rs / 256 % 256) = rs := by omega
  simp [Except.map, e1, e2, e3]

/-! ## Helper lemmas: per-field encode/decode round trip -/

theorem encodeField_roundtrip (codec : Codec) (fd : FieldDescr) (v : Value)
    (hf : validFieldB fd = true) (hv : validValueB fd v = true) :
    ∃ bs, encodeField false codec fd v = .ok bs ∧ bs.length = fd.flen ∧
      decodeField false codec fd bs = .ok v := by
  have hfacts := hf
  simp only [validFieldB, Bool.and_eq_true, decide_eq_true_eq] at hfacts
  obtain ⟨⟨⟨⟨⟨⟨⟨hn10, hpr⟩, hfl0⟩, hfl256⟩, hfd256⟩, htk⟩, hd8⟩, hl1⟩ := hfacts
  by_cases h78 : fd.ftype = 78
  · unfold validValueB at hv
    rw [if_pos h78] at hv
    by_cases hdec0 : fd.fdec = 0
    · rw [if_pos hdec0] at hv
      cases v with
      | vint n =>
        simp only [decide_eq_true_eq] at hv
        refine ⟨List.replicate (fd.flen - (intStr n).length) 32 ++ intStr n, ?_, ?_, ?_⟩
        · rw [encodeField, if_pos h78, hdec0]
          simp only [encodeN]
          rw [if_pos hv]
        · simp only [List.length_append, List.length_replicate]
          omega
        · rw [decodeField, if_pos h78, hdec0]
          exact decodeN_int_roundtrip fd.flen n hv
      | vdec m => simp at hv
      | vstr s => simp at hv
      | vdate d => simp at hv
      | vbool b => simp at hv
      | vnone => simp at hv
    · rw [if_neg hdec0] at hv
      cases v with
      | vdec m =>
        simp only [decide_eq_true_eq] at hv
        have hdec1 : 1 ≤ fd.fdec := by omega
        obtain ⟨d, hd⟩ : ∃ d, fd.fdec = d + 1 := ⟨fd.fdec - 1, by omega⟩
        refine ⟨List.replicate (fd.flen - (fixedStr fd.fdec m).length) 32 ++ fixedStr fd.fdec m,
          ?_, ?_, ?_⟩
        · rw [encodeField, if_pos h78, hd]
          simp only [encodeN]
          rw [← hd, if_pos hv]
        · simp only [List.length_append, List.length_replicate]
          omega
        · rw [decodeField, if_pos h78]
          exact decodeN_dec_roundtrip fd.flen fd.fdec m hdec1 hv
      | vint n => simp at hv
      | vstr s => simp at hv
      | vdate d => simp at hv
      | vbool b => simp at hv
      | vnone => simp at hv
  · by_cases h67 : fd.ftype = 67
    · unfold validValueB at hv
      rw [if_neg h78, if_pos h67] at hv
      cases v with
      | vstr s =>
        simp only [Bool.and_eq_true, decide_eq_true_eq] at hv
        obtain ⟨⟨hslen, _⟩, hlast⟩ := hv
        refine ⟨s ++ List.replicate (fd.flen - s.length) 32, ?_, ?_, ?_⟩
        · rw [encodeField, if_neg h78, if_pos h67]
          have e : encodeC false codec fd.flen (.vstr s) =
              if s.length ≤ fd.flen then .ok (s ++ List.replicate (fd.flen - s.length) 32)
              else .error .valueError := rfl
          rw [e, if_pos hslen]
        · simp only [List.length_append, List.length_replicate]
          omega
        · rw [decodeField, if_neg h78, if_pos h67]
          have e : decodeC false codec (s ++ List.replicate (fd.flen - s.length) 32)
              = .ok (.vstr (rtrimSpaces (s ++ List.replicate (fd.flen - s.length) 32))) := rfl
          rw [e, rtrimSpaces_pad s _ hlast]
      | vint n => simp at hv
      | vdec m => simp at hv
      | vdate d => simp at hv
      | vbool b => simp at hv
      | vnone => simp at hv
    · by_cases h68 : fd.ftype = 68
      · unfold validValueB at hv
        rw [if_neg h78, if_neg h67, if_pos h68] at hv
        cases v with
        | vdate d =>
          have hfl : fd.flen = 8 := by
            simp only [Bool.or_eq_true, bne_iff_ne, beq_iff_eq] at hd8
            rcases hd8 with hc | hc
            · exact absurd h68 hc
            · exact hc
          refine ⟨dateRender d, ?_, ?_, ?_⟩
          · rw [encodeField, if_neg h78, if_neg h67, if_pos h68]
            rfl
          · rw [dateRender_length, hfl]
          · rw [decodeField, if_neg h78, if_neg h67, if_pos h68]
            rw [decodeD, rawToDate_dateRender d hv]
        | vint n => simp at hv
        | vdec m => simp at hv
        | vstr s => simp at hv
        | vbool b => simp at hv
        | vnone => simp at hv
      · by_cases h76 : fd.ftype = 76
        · unfold validValueB at hv
          rw [if_neg h78, if_neg h67, if_neg h68, if_pos h76] at hv
          cases v with
          | vbool b =>
            have hfl : fd.flen = 1 := by
              simp only [Bool.or_eq_true, bne_iff_ne, beq_iff_eq] at hl1
              rcases hl1 with hc | hc
              · exact absurd h76 hc
              · exact hc
            refine ⟨[if b then 84 else 70], ?_, ?_, ?_⟩
            · rw [encodeField, if_neg h78, if_neg h67, if_neg h68, if_pos h76]
              rfl
            · simp [hfl]
            · rw [decodeField, if_neg h78, if_neg h67, if_neg h68, if_pos h76]
              cases b <;> rfl
          | vint n => simp at hv
          | vdec m => simp at hv
          | vstr s => simp at hv
          | vdate d => simp at hv
          | vnone => simp at hv
        · rcases htk' : fd.ftype == 78 with _ | _ <;>
            rcases hc : (fd.ftype == 67 || fd.ftype == 68 || fd.ftype == 76) with _ | _ <;>
            simp only [typeKnown] at htk <;>
            simp_all

/-! ## Helper lemmas: record and data-section round trip -/

theorem encodeFields_roundtrip (codec : Codec) :
    ∀ (fields : List FieldDescr) (vals : List Value),
      (∀ fd ∈ fields, validFieldB fd = true) → validRecordB fields vals = true →
      ∃ bs, encodeFields false codec fields vals = .ok bs ∧
        bs.length = (fields.map (·.flen)).sum ∧
        ∀ extra, decodeFields false codec fields (bs ++ extra) = .ok vals := by
  intro fields
  induction fields with
  | nil =>
    intro vals _ hv
    simp only [validRecordB, List.length_nil, beq_iff_eq, List.zip_nil_left, List.all_nil,
      Bool.and_true] at hv
    rcases vals with _ | ⟨v, vs⟩
    · exact ⟨[], rfl, rfl, fun extra => rfl⟩
    · simp at hv
  | cons fd rest ih =>
    intro vals hf hv
    rcases vals with _ | ⟨v, vs⟩
    · simp [validRecordB] at hv
    · have hv' := hv
      simp only [validRecordB, List.length_cons, beq_iff_eq, Nat.succ.injEq, List.zip_cons_cons,
        List.all_cons, Bool.and_eq_true, decide_eq_true_eq] at hv'
      obtain ⟨hlen, hvfd, hvs⟩ := hv'
      obtain ⟨bsf, hef, hlf, hdf⟩ :=
        encodeField_roundtrip codec fd v (hf fd (by simp)) hvfd
      obtain ⟨bsr, her, hlr, hdr⟩ :=
        ih vs (fun x hx => hf x (by simp [hx])) (by simp [validRecordB, hlen, hvs])
      refine ⟨bsf ++ bsr, ?_, ?_, ?_⟩
      · rw [show encodeFields false codec (fd :: rest) (v :: vs) = (do
            let bs ← encodeField false codec fd v
            let r ← encodeFields false codec rest vs
            Except.ok (bs ++ r)) from rfl]
        rw [hef, her]
        rfl
      · simp [hlf, hlr]
      · intro extra
        rw [show decodeFields false codec (fd :: rest) ((bsf ++ bsr) ++ extra) = (do
            let v2 ← decodeField false codec fd (((bsf ++ bsr) ++ extra).take fd.flen)
            let vs2 ← decodeFields false codec rest (((bsf ++ bsr) ++ extra).drop fd.flen)
            Except.ok (v2 :: vs2)) from rfl]
        rw [List.append_assoc, List.take_left' hlf, List.drop_left' hlf, hdf, hdr extra]
        rfl

theorem encodeRecord_roundtrip (codec : Codec) (fields : List FieldDescr) (flag : Nat)
    (vals : List Value) (hf : ∀ fd ∈ fields, validFieldB fd = true)
    (hv : validRecordB fields vals = true) :
    ∃ rbs, encodeRecord false codec fields flag vals = .ok rbs ∧
      rbs.length = recsizeOf fields ∧
      ∀ extra, decodeRecord false codec fields ((rbs ++ extra).take (recsizeOf fields))
        = .ok (flag, vals) := by
  obtain ⟨bs, he, hl, hd⟩ := encodeFields_roundtrip codec fields vals hf hv
  refine ⟨flag :: bs, ?_, ?_, ?_⟩
  · rw [encodeRecord, he]
    rfl
  · simp only [List.length_cons, recsizeOf, hl]
    omega
  · intro extra
    have hxl : ((flag :: bs) ++ extra).take (recsizeOf fields) = flag :: bs := by
      refine List.take_left' ?_
      simp only [List.length_cons, recsizeOf, hl]
      omega
    rw [hxl]
    rw [show decodeRecord false codec fields (flag :: bs)
        = (decodeFields false codec fields bs).map (fun vs => (flag, vs)) from rfl]
    have := hd []
    rw [List.append_nil] at this
    rw [this]
    rfl

theorem encodeBody_roundtrip (codec : Codec) (fields : List FieldDescr)
    (hf : ∀ fd ∈ fields, validFieldB fd = true) :
    ∀ (flagged : List (Nat × List Value)),
      (∀ fr ∈ flagged, validRecordB fields fr.2 = true) →
      ∃ body, encodeBody false codec fields flagged = .ok body ∧
        body.length = recsizeOf fields * flagged.length ∧
        ∀ extra, readAllRecords false codec fields (recsizeOf fields) flagged.length
          (body ++ extra) = .ok flagged := by
  intro flagged
  induction flagged with
  | nil => exact fun _ => ⟨[], rfl, by simp, fun extra => rfl⟩
  | cons fr rest ih =>
    intro hv
    obtain ⟨rbs, her, hlr, hdr⟩ :=
      encodeRecord_roundtrip codec fields fr.1 fr.2 hf (hv fr (by simp))
    obtain ⟨body, heb, hlb, hdb⟩ := ih (fun x hx => hv x (by simp [hx]))
    refine ⟨rbs ++ body, ?_, ?_, ?_⟩
    · rw [show encodeBody false codec fields (fr :: rest) = (do
          let r ← encodeRecord false codec fields fr.1 fr.2
          let rs ← encodeBody false codec fields rest
          Except.ok (r ++ rs)) from rfl]
      rw [her, heb]
      rfl
    · simp [hlr, hlb]
      ring
    · intro extra
      simp only [List.length_cons]
      rw [show readAllRecords false codec fields (recsizeOf fields) (rest.length + 1)
          ((rbs ++ body) ++ extra) = (do
            let r ← decodeRecord false codec fields
              (((rbs ++ body) ++ extra).take (recsizeOf fields))
            let rs ← readAllRecords false codec fields (recsizeOf fields) rest.length
              (((rbs ++ body) ++ extra).drop (recsizeOf fields))
            Except.ok (r :: rs)) from rfl]
      rw [List.append_assoc, hdr (body ++ extra), List.drop_left' hlr, hdb extra]
      rfl

theorem buildFile_readFile (cfg : WriterCfg) (fields : List FieldDescr)
    (flagged : List (Nat × List Value))
    (hcfg : cfg.useUnicode = false) (hupd : cfg.lastUpdate.length = 3)
    (hf : ∀ fd ∈ fields, validFieldB fd = true)
    (hr : ∀ fr ∈ flagged, validRecordB fields fr.2 = true)
    (hn : flagged.length < 4294967296)
    (hlh : lenheaderOf fields.length < 65536)
    (hrs : recsizeOf fields < 65536) :
    ∃ bytes body, buildFile cfg fields flagged = .ok bytes ∧
      bytes = buildHeaderBytes (hdrOf cfg fields flagged.length) ++ (body ++ [26]) ∧
      body.length = recsizeOf fields * flagged.length ∧
      readFile false cfg.codec bytes = .ok (hdrOf cfg fields flagged.length, flagged) := by
  have hck : checkFields fields = .ok () := by
    unfold checkFields
    rw [if_pos]
    rw [List.all_eq_true]
    intro fd hfd
    have := hf fd hfd
    simp only [validFieldB, Bool.and_eq_true] at this
    exact this.1.1.2
  obtain ⟨body, heb, hlb, hdb⟩ := encodeBody_roundtrip cfg.codec fields hf flagged hr
  have hnames : ∀ fd ∈ (hdrOf cfg fields flagged.length).fields, fd.name.length ≤ 10 := by
    intro fd hfd
    have := hf fd hfd
    simp only [validFieldB, Bool.and_eq_true, decide_eq_true_eq] at this
    exact this.1.1.1.1.1.1.1
  have hhl : (buildHeaderBytes (hdrOf cfg fields flagged.length)).length
      = lenheaderOf fields.length :=
    buildHeaderBytes_length _ hnames
  refine ⟨buildHeaderBytes (hdrOf cfg fields flagged.length) ++ (body ++ [26]), body,
    ?_, rfl, hlb, ?_⟩
  · have e : buildFile cfg fields flagged =
        (checkFields fields).bind (fun _ =>
          (encodeBody cfg.useUnicode cfg.codec fields flagged).bind (fun b =>
            Except.ok (buildHeaderBytes (hdrOf cfg fields flagged.length) ++ b ++ [26]))) := rfl
    rw [e, hck, hcfg, heb]
    simp [Except.bind, List.append_assoc]
  · have e2 : readFile false cfg.codec
        (buildHeaderBytes (hdrOf cfg fields flagged.length) ++ (body ++ [26]))
        = (parseHeader (buildHeaderBytes (hdrOf cfg fields flagged.length)
            ++ (body ++ [26]))).bind
          (fun hdr => (readAllRecords false cfg.codec hdr.fields hdr.recsize hdr.numrec
            ((buildHeaderBytes (hdrOf cfg fields flagged.length) ++ (body ++ [26])).drop
              hdr.lenheader)).bind (fun recs => Except.ok (hdr, recs))) := rfl
    rw [e2, parseHeader_buildHeaderBytes (hdrOf cfg fields flagged.length) (body ++ [26])
      hn hlh hrs hupd hf]
    simp only [Except.bind]
    rw [show (hdrOf cfg fields flagged.length).lenheader = lenheaderOf fields.length from rfl,
      ← hhl, List.drop_left]
    rw [show (hdrOf cfg fields flagged.length).recsize = recsizeOf fields from rfl,
      show (hdrOf cfg fields flagged.length).numrec = flagged.length from rfl,
      show (hdrOf cfg fields flagged.length).fields = fields from rfl]
    rw [hdb [26]]

theorem buildHeaderBytes_numrec_field (h : DbfHeader) (tail : List Nat) :
    ((buildHeaderBytes h ++ tail).drop 4).take 4 =
      [h.numrec % 256, h.numrec / 256 % 256, h.numrec / 65536 % 256,
       h.numrec / 16777216 % 256] := by
  simp [buildHeaderBytes]

/-! ## C1: full write-then-read round trip -/

/-- C1: writing any sequence of records valid for the declared field table
and re-reading the produced bytes yields the same field values for every
record; the finalized header record-count field (bytes 4..7, little-endian)
holds the number of records written; and the file is a header-plus-data
prefix followed by the single end-of-file marker byte `0x1A` (26). -/
theorem claim_C1_write_read_roundtrip (cfg : WriterCfg) (fields : List FieldDescr)
    (recs : List (List Value))
    (hcfg : cfg.useUnicode = false) (hupd : cfg.lastUpdate.length = 3)
    (hf : ∀ fd ∈ fields, validFieldB fd = true)
    (hr : ∀ r ∈ recs, validRecordB fields r = true)
    (hn : recs.length < 4294967296)
    (hlh : lenheaderOf fields.length < 65536)
    (hrs : recsizeOf fields < 65536) :
    ∃ bytes, writeFile cfg fields recs = .ok bytes ∧
      readFile false cfg.codec bytes
        = .ok (hdrOf cfg fields recs.length, recs.map (fun r => (32, r))) ∧
      (bytes.drop 4).take 4 =
        [recs.length % 256, recs.length / 256 % 256, recs.length / 65536 % 256,
         recs.length / 16777216 % 256] ∧
      ∃ pre, bytes = pre ++ [26] ∧
        pre.length = lenheaderOf fields.length + recsizeOf fields * recs.length := by
  have hr' : ∀ fr ∈ recs.map (fun r => ((32 : Nat), r)), validRecordB fields fr.2 = true := by
    intro fr hfr
    obtain ⟨r, hrm, rfl⟩ := List.mem_map.1 hfr
    exact hr r hrm
  have hlen : (recs.map (fun r => ((32 : Nat), r))).length = recs.length := by simp
  obtain ⟨bytes, body, hb, hshape, hblen, hread⟩ :=
    buildFile_readFile cfg fields (recs.map (fun r => (32, r))) hcfg hupd hf hr'
      (by rwa [hlen]) hlh hrs
  have hnames : ∀ fd ∈ fields, fd.name.length ≤ 10 := by
    intro fd hfd
    have := hf fd hfd
    simp only [validFieldB, Bool.and_eq_true, decide_eq_true_eq] at this
    exact this.1.1.1.1.1.1.1
  refine ⟨bytes, hb, ?_, ?_, ?_⟩
  · rw [hread, hlen]
  · rw [hshape, buildHeaderBytes_numrec_field]
    rw [show (hdrOf cfg fields (recs.map (fun r => ((32 : Nat), r))).length).numrec
        = (recs.map (fun r => ((32 : Nat), r))).length from rfl, hlen]
  · refine ⟨buildHeaderBytes (hdrOf cfg fields (recs.map (fun r => ((32 : Nat), r))).length)
      ++ body, ?_, ?_⟩
    · rw [hshape]
      simp
    · rw [List.length_append, hblen, hlen,
        buildHeaderBytes_length _ (by simpa [hdrOf] using hnames)]
      rfl

theorem claim_C1_witness :
    testCfg.useUnicode = false ∧
    testCfg.lastUpdate.length = 3 ∧
    (∀ fd ∈ testFields, validFieldB fd = true) ∧
    (∀ r ∈ testRecs, validRecordB testFields r = true) ∧
    lenheaderOf testFields.length = 193 ∧
    recsizeOf testFields = 25 ∧
    ∃ bytes, writeFile testCfg testFields testRecs = .ok bytes ∧
      readFile false testCfg.codec bytes
        = .ok (hdrOf testCfg testFields testRecs.length,
            testRecs.map (fun r => (32, r))) ∧
      (bytes.drop 4).take 4 =
        [testRecs.length % 256, testRecs.length / 256 % 256,
         testRecs.length / 65536 % 256, testRecs.length / 16777216 % 256] ∧
      ∃ pre, bytes = pre ++ [26] ∧
        pre.length = lenheaderOf testFields.length + recsizeOf testFields * testRecs.length :=
  ⟨rfl, rfl, by decide, by decide, by decide, by decide,
   claim_C1_write_read_roundtrip testCfg testFields testRecs rfl rfl
     (by decide) (by decide) (by decide) (by decide) (by decide)⟩

/-! ## C2: deletion-flag filtering and slicing -/

/-- C2: for a file whose records carry deletion-flag bytes space (32) or
`*` (42), default iteration yields exactly the non-deleted records in
on-disk order, deleted-record visibility yields every record with its
deletion marker (empty text for live, `*` for deleted) prepended, and the
start offset and optional limit are measured against the filtered output
sequence. -/
theorem claim_C2_deleted_records (cfg : WriterCfg) (fields : List FieldDescr)
    (flagged : List (Nat × List Value))
    (hcfg : cfg.useUnicode = false) (hupd : cfg.lastUpdate.length = 3)
    (hf : ∀ fd ∈ fields, validFieldB fd = true)
    (hflags : ∀ fr ∈ flagged, fr.1 = 32 ∨ fr.1 = 42)
    (hr : ∀ fr ∈ flagged, validRecordB fields fr.2 = true)
    (hn : flagged.length < 4294967296)
    (hlh : lenheaderOf fields.length < 65536)
    (hrs : recsizeOf fields < 65536) :
    ∃ bytes, buildFile cfg fields flagged = .ok bytes ∧
      (∀ (start : Nat) (limit : Option Nat),
        readerRecords false cfg.codec bytes false start limit =
          .ok (applyLimit limit
            (((flagged.filter (fun fr => !(fr.1 == 42))).map Prod.snd).drop start))) ∧
      readerRecords false cfg.codec bytes true 0 none =
        .ok (flagged.map (fun fr =>
          Value.vstr (if fr.1 = 42 then [42] else []) :: fr.2)) := by
  obtain ⟨bytes, body, hb, hshape, hblen, hread⟩ :=
    buildFile_readFile cfg fields flagged hcfg hupd hf hr hn hlh hrs
  refine ⟨bytes, hb, ?_, ?_⟩
  · intro start limit
    have e : readerRecords false cfg.codec bytes false start limit
        = (readFile false cfg.codec bytes).bind (fun res =>
            Except.ok (applyLimit limit
              (((res.2.filter (fun fr => !(fr.1 == 42))).map Prod.snd).drop start))) := rfl
    rw [e, hread]
    rfl
  · have e : readerRecords false cfg.codec bytes true 0 none
        = (readFile false cfg.codec bytes).bind (fun res =>
            Except.ok (applyLimit none
              ((res.2.map (fun fr =>
                Value.vstr (if fr.1 = 42 then [42] else []) :: fr.2)).drop 0))) := rfl
    rw [e, hread]
    rfl

theorem claim_C2_witness :
    (∀ fr ∈ testFlagged, fr.1 = 32 ∨ fr.1 = 42) ∧
    (∀ fr ∈ testFlagged, validRecordB testFields fr.2 = true) ∧
    ((testFlagged.filter (fun fr => !(fr.1 == 42))).map Prod.snd).length = 2 ∧
    (((testFlagged.filter (fun fr => !(fr.1 == 42))).map Prod.snd).drop 1).length = 1 ∧
    ∃ bytes, buildFile testCfg testFields testFlagged = .ok bytes ∧
      (∀ (start : Nat) (limit : Option Nat),
        readerRecords false testCfg.codec bytes false start limit =
          .ok (applyLimit limit
            (((testFlagged.filter (fun fr => !(fr.1 == 42))).map Prod.snd).drop start))) ∧
      readerRecords false testCfg.codec bytes true 0 none =
        .ok (testFlagged.map (fun fr =>
          Value.vstr (if fr.1 = 42 then [42] else []) :: fr.2)) :=
  ⟨by decide, by decide, by decide, by decide,
   claim_C2_deleted_records testCfg testFields testFlagged rfl rfl
     (by decide) (by decide) (by decide) (by decide) (by decide) (by decide)⟩

/-! ## Helper lemmas: the descriptor loop rejects unknown type codes -/

theorem parseFieldsFuel_error (S : List Nat) :
    ∀ (fields : List FieldDescr) (fuel : Nat), fields.length < fuel →
      (∀ fd ∈ fields, fd.name.length ≤ 10 ∧ ∀ b ∈ fd.name, 32 ≤ b ∧ b ≤ 126) →
      (∃ fd ∈ fields, typeKnown fd.ftype = false) →
      parseFieldsFuel fuel ((fields.map descBytes).flatten ++ (13 :: S))
        = .error .valueError := by
  intro fields
  induction fields with
  | nil =>
    intro fuel _ _ hbad
    simp at hbad
  | cons fd rest ih =>
    intro fuel hfuel hnames hbad
    obtain ⟨f, rfl⟩ : ∃ f, fuel = f + 1 := ⟨fuel - 1, by omega⟩
    obtain ⟨hn10, hpr⟩ := hnames fd (by simp)
    have hstream : ((fd :: rest).map descBytes).flatten ++ (13 :: S)
        = descBytes fd ++ ((rest.map descBytes).flatten ++ (13 :: S)) := by
      simp
    rw [hstream]
    unfold parseFieldsFuel
    rw [if_neg (descBytes_append_ne_nil fd _), if_neg ?hterm]
    case hterm =>
      intro hc
      exact descBytes_headD_ne_13 fd _ hpr hc
    rw [parseDescBlock_descBytes fd _ hn10 hpr]
    by_cases ht : typeKnown fd.ftype = true
    · rw [if_pos ht]
      have hbad' : ∃ fd' ∈ rest, typeKnown fd'.ftype = false := by
        rcases hbad with ⟨fd', hmem, hb⟩
        rcases List.mem_cons.1 hmem with rfl | hmem'
        · rw [ht] at hb
          exact absurd hb (by simp)
        · exact ⟨fd', hmem', hb⟩
      rw [List.drop_left' (descBytes_length fd hn10)]
      rw [ih f (by simpa using hfuel) (fun x hx => hnames x (by simp [hx])) hbad']
      rfl
    · rw [if_neg ht]

theorem parseHeader_error_of_bad_type (h : DbfHeader) (tail : List Nat)
    (hnames : ∀ fd ∈ h.fields, fd.name.length ≤ 10 ∧ ∀ b ∈ fd.name, 32 ≤ b ∧ b ≤ 126)
    (hbad : ∃ fd ∈ h.fields, typeKnown fd.ftype = false) :
    parseHeader (buildHeaderBytes h ++ tail) = .error .valueError := by
  have hshape : buildHeaderBytes h ++ tail =
      h.sig :: h.lastUpdate.getD 0 0 :: h.lastUpdate.getD 1 0 :: h.lastUpdate.getD 2 0 ::
      (h.numrec % 256) :: (h.numrec / 256 % 256) :: (h.numrec / 65536 % 256) ::
      (h.numrec / 16777216 % 256) ::
      (h.lenheader % 256) :: (h.lenheader / 256 % 256) ::
      (h.recsize % 256) :: (h.recsize / 256 % 256) ::
      (0 :: 0 :: 0 :: 0 :: 0 :: 0 :: 0 :: 0 :: 0 :: 0 :: 0 :: 0 :: 0 :: 0 :: 0 :: 0 :: 0 ::
       h.lang :: 0 :: 0 :: (((h.fields.map descBytes).flatten ++ [13]) ++ tail)) := by
    simp [buildHeaderBytes]
  rw [hshape]
  simp only [parseHeader]
  have hdrop20 : (0 :: 0 :: 0 :: 0 :: 0 :: 0 :: 0 :: 0 :: 0 :: 0 :: 0 :: 0 :: 0 :: 0 :: 0 ::
      0 :: 0 :: h.lang :: 0 :: 0 :: (((h.fields.map descBytes).flatten ++ [13]) ++ tail) :
      List Nat).drop 20 = ((h.fields.map descBytes).flatten ++ [13]) ++ tail := rfl
  rw [hdrop20]
  have hterm : ((h.fields.map descBytes).flatten ++ [13]) ++ tail
      = (h.fields.map descBytes).flatten ++ (13 :: tail) := by simp
  rw [hterm]
  have hloop : parseFieldsLoop ((h.fields.map descBytes).flatten ++ (13 :: tail))
      = .error .valueError := by
    unfold parseFieldsLoop
    refine parseFieldsFuel_error tail h.fields _ ?_ hnames hbad
    have h2 : h.fields.length ≤ ((h.fields.map descBytes).flatten).length := by
      rw [descs_flatten_length h.fields (fun fd hfd => (hnames fd hfd).1)]
      omega
    simp only [List.length_append, List.length_cons]
    omega
  rw [hloop]
  rfl

/-! ## C3: the type-code gate is the sole schema validation -/

/-- C3: a field table containing a type code outside `{N, C, D, L}` makes
header parsing (Reader construction) and header building (Writer
construction) fail with a value error — for the parse, whatever the rest of
the file holds (`tail`), so before any record is read; a table whose type
codes are all recognized passes the Writer-construction gate, which checks
nothing else. -/
theorem claim_C3_schema_gate :
    (∀ (h : DbfHeader) (tail : List Nat),
      (∀ fd ∈ h.fields, fd.name.length ≤ 10 ∧ ∀ b ∈ fd.name, 32 ≤ b ∧ b ≤ 126) →
      (∃ fd ∈ h.fields, typeKnown fd.ftype = false) →
      parseHeader (buildHeaderBytes h ++ tail) = .error .valueError) ∧
    (∀ fields : List FieldDescr, (∃ fd ∈ fields, typeKnown fd.ftype = false) →
      checkFields fields = .error .valueError) ∧
    (∀ fields : List FieldDescr, (∀ fd ∈ fields, typeKnown fd.ftype = true) →
      checkFields fields = .ok ()) := by
  refine ⟨parseHeader_error_of_bad_type, ?_, ?_⟩
  · intro fields hbad
    unfold checkFields
    rw [if_neg]
    intro hall
    rcases hbad with ⟨fd, hmem, hb⟩
    have := List.all_eq_true.1 hall fd hmem
    rw [hb] at this
    exact Bool.false_ne_true this
  · intro fields hall
    unfold checkFields
    rw [if_pos]
    rw [List.all_eq_true]
    exact hall

theorem claim_C3_witness :
    (∃ fd ∈ wrongTypeFields, typeKnown fd.ftype = false) ∧
    checkFields wrongTypeFields = .error .valueError ∧
    (∀ fd ∈ testFields, typeKnown fd.ftype = true) ∧
    checkFields testFields = .ok () ∧
    parseHeader (buildHeaderBytes ⟨3, [106, 6, 19], 0, 193, 25, 0, wrongTypeFields⟩ ++ [])
      = .error .valueError :=
  ⟨by decide, claim_C3_schema_gate.2.1 wrongTypeFields (by decide), by decide,
   claim_C3_schema_gate.2.2 testFields (by decide),
   claim_C3_schema_gate.1 ⟨3, [106, 6, 19], 0, 193, 25, 0, wrongTypeFields⟩ []
     (by decide) (by decide)⟩

/-! ## C9: derived header length and record length -/

/-- C9: for every header, built from a caller-supplied field table or
parsed back from the written bytes, the derived header length is
`32 + 32 × numfields + 1` and the derived record length is 1 (deletion
flag) plus the sum of the declared field widths. -/
theorem claim_C9_derived_sizes (cfg : WriterCfg) (fields : List FieldDescr)
    (recs : List (List Value))
    (hcfg : cfg.useUnicode = false) (hupd : cfg.lastUpdate.length = 3)
    (hf : ∀ fd ∈ fields, validFieldB fd = true)
    (hr : ∀ r ∈ recs, validRecordB fields r = true)
    (hn : recs.length < 4294967296)
    (hlh : lenheaderOf fields.length < 65536)
    (hrs : recsizeOf fields < 65536) :
    lenheaderOf fields.length = 32 + 32 * fields.length + 1 ∧
    recsizeOf fields = 1 + (fields.map (·.flen)).sum ∧
    ∃ bytes h out, writeFile cfg fields recs = .ok bytes ∧
      readFile false cfg.codec bytes = .ok (h, out) ∧
      h.fields = fields ∧
      h.lenheader = 32 + 32 * h.fields.length + 1 ∧
      h.recsize = 1 + (h.fields.map (·.flen)).sum := by
  refine ⟨rfl, rfl, ?_⟩
  have hr' : ∀ fr ∈ recs.map (fun r => ((32 : Nat), r)), validRecordB fields fr.2 = true := by
    intro fr hfr
    obtain ⟨r, hrm, rfl⟩ := List.mem_map.1 hfr
    exact hr r hrm
  have hlen : (recs.map (fun r => ((32 : Nat), r))).length = recs.length := by simp
  obtain ⟨bytes, body, hb, hshape, hblen, hread⟩ :=
    buildFile_readFile cfg fields (recs.map (fun r => (32, r))) hcfg hupd hf hr'
      (by rwa [hlen]) hlh hrs
  exact ⟨bytes, hdrOf cfg fields (recs.map (fun r => ((32 : Nat), r))).length,
    recs.map (fun r => (32, r)), hb, hread, rfl, rfl, rfl⟩

theorem claim_C9_witness :
    lenheaderOf testFields.length = 193 ∧
    recsizeOf testFields = 25 ∧
    testFields.length = 5 ∧
    lenheaderOf testFields.length = 32 + 32 * testFields.length + 1 ∧
    recsizeOf testFields = 1 + (testFields.map (·.flen)).sum ∧
    ∃ bytes h out, writeFile testCfg testFields testRecs = .ok bytes ∧
      readFile false testCfg.codec bytes = .ok (h, out) ∧
      h.fields = testFields ∧
      h.lenheader = 32 + 32 * h.fields.length + 1 ∧
      h.recsize = 1 + (h.fields.map (·.flen)).sum :=
  ⟨by decide, by decide, by decide, by decide, by decide,
   (claim_C9_derived_sizes testCfg testFields testRecs rfl rfl
     (by decide) (by decide) (by decide) (by decide) (by decide)).2.2⟩

end Ydbf
